import Mathlib

/-!
# driftctl: the driftignore filter, the instance-group-manager middleware and
the information printer of the JSON output

A shallow embedding of

* `pkg/filter/driftignore.go`: `escapableSplit`, `readIgnoreFile`,
  `IsResourceIgnored`, `IsFieldIgnored`, `isExcluded`;
* `pkg/middlewares/google_compute_instance_group_manager_expander.go`: `Execute`;
* `pkg/output/printer.go` and `pkg/cmd/scan/output/json.go`: the printers,
  `GetInfoPrinter`, `isStdOut`, `Write`.

Go strings are modelled by `String`, a sequence of Unicode characters, that is a
Go string holding valid UTF-8.  Where the source works on bytes (indexing
`line[i]`, `len(line)`) the embedding says how the byte positions are computed
from the characters.
-/

set_option autoImplicit false

/-! ## Library functions used by the source -/

namespace strings

/-- Go `strings.Join(elems, sep)`: the elements concatenated, `sep` between
consecutive elements. -/
def Join : List String → String → String
  | [], _ => ""
  | [a], _ => a
  | a :: b :: rest, sep => a ++ sep ++ Join (b :: rest) sep

/-- Go `strings.ToLower` on ASCII text: the letters `A`-`Z` are mapped to
`a`-`z`.  Characters outside ASCII are left as they are here, while Go maps them
by their Unicode lower case; the general theorems below therefore take the
lower-casing function as a parameter and this one is used on concrete ASCII
inputs only. -/
def ToLower (s : String) : String :=
  String.mk (s.data.map Char.toLower)

end strings

namespace stringutils

/-- Modelled from the spec: the work of `stringutils.Unescape` on the characters
of its argument, see `Unescape`.  Backslash-dot becomes a dot,
backslash-backslash becomes a backslash, every other character is kept. -/
def unescapeChars : List Char → List Char
  | c :: d :: cs =>
    if c = '\\' ∧ (d = '.' ∨ d = '\\') then d :: unescapeChars cs
    else c :: unescapeChars (d :: cs)
  | cs => cs

/-- Modelled from the spec: `stringutils.Unescape` is called by `escapableSplit`
but its package is not part of the sampled sources.  The spec says that each
segment "has escape sequences resolved to their literal characters", the escape
sequences being `\.` (a literal dot) and `\\` (a literal backslash).  A backslash
followed by any other character, or ending the text, is not an escape sequence
and is kept. -/
def Unescape (s : String) : String :=
  String.mk (unescapeChars s.data)

end stringutils

/-! ## pkg/filter/driftignore.go -/

namespace filter

/-- Modelled from the spec: the interface `resource.Resource` is declared outside
the sampled sources.  A resource is identified by its type and its id, which the
filter reads through the methods `TerraformType()` and `TerraformId()`
(implemented for instance by `AwsIamUserPolicy`). -/
structure Resource where
  TerraformType : String
  TerraformId : String
deriving DecidableEq, Repr

/-- The struct `DriftIgnore`.  `resExclusionList` is a Go `map[string]struct{}`,
modelled by the list of its keys; `driftExclusionList` is a Go
`map[string][]string`, modelled by an association list in which a store puts the
new binding in front and a lookup returns the first binding of the key. -/
structure DriftIgnore where
  resExclusionList : List String
  driftExclusionList : List (String × List String)
deriving DecidableEq, Repr

/-- The number of bytes of the UTF-8 encoding of a list of characters: Go
`len` of the corresponding string. -/
def byteLen (cs : List Char) : Nat :=
  (cs.map Char.utf8Size).sum

/-- One iteration of the loop `for i := range line` of `escapableSplit`, the
state being `(splitted, lastWordEnd)`.

Go ranges over the characters of the string and `i` is the byte offset of the
current character; here `i` is the index of the character, and its byte offset is
`byteLen (line.take i)`.  The byte `line[i]` is the first byte of the current
character and equals `.` exactly when the character is `.`; the byte `line[i-1]`
is the last byte of the previous character and equals a backslash exactly when
that character is a backslash (then `line[i-2]` is the last byte of the
character before it).  The slices `line[lastWordEnd:i]` start and end at
character boundaries, so `lastWordEnd` is kept as a character index too.  The
test `i == len(line)-1` compares byte offsets. -/
def escapableSplitStep (unescape : String → String) (line : List Char)
    (st : List String × Nat) (i : Nat) : List String × Nat :=
  if line.get? i = some '.' ∧
      ((i ≥ 1 ∧ line.get? (i - 1) ≠ some '\\') ∨
        (i ≥ 2 ∧ line.get? (i - 1) = some '\\' ∧ line.get? (i - 2) = some '\\')) then
    (st.1 ++ [unescape (String.mk ((line.take i).drop st.2))], i + 1)
  else if byteLen (line.take i) + 1 = byteLen line then
    (st.1 ++ [unescape (String.mk (line.drop st.2))], st.2)
  else st

/-- The function `escapableSplit`, with `stringutils.Unescape` as a parameter. -/
def escapableSplit (unescape : String → String) (line : String) : List String :=
  ((List.range line.data.length).foldl (escapableSplitStep unescape line.data) ([], 0)).1

/-- The body of the loop of `readIgnoreFile` for one line returned by the
scanner (the log calls are left out). -/
def readIgnoreLine (unescape : String → String) (r : DriftIgnore) (line : String) :
    DriftIgnore :=
  let typeVal := escapableSplit unescape line
  let nbArgs := typeVal.length
  if nbArgs < 2 then r
  else if nbArgs = 2 then
    { r with resExclusionList := strings.Join typeVal "." :: r.resExclusionList }
  else
    let res := strings.Join (typeVal.take 2) "."
    let ignoreSublist := (r.driftExclusionList.lookup res).getD []
    let path := strings.Join (typeVal.drop 2) "."
    { r with driftExclusionList := (res, ignoreSublist ++ [path]) :: r.driftExclusionList }

/-- The method `readIgnoreFile`, from the lines the scanner returns: the loop
body is run on every line in order. -/
def readIgnoreFile (unescape : String → String) (r : DriftIgnore) (lines : List String) :
    DriftIgnore :=
  lines.foldl (readIgnoreLine unescape) r

/-- The constructor `NewDriftIgnore` for a `.driftignore` file made of `lines`:
two empty maps, filled by `readIgnoreFile`. -/
def NewDriftIgnore (unescape : String → String) (lines : List String) : DriftIgnore :=
  readIgnoreFile unescape { resExclusionList := [], driftExclusionList := [] } lines

/-- The method `IsResourceIgnored`. -/
def IsResourceIgnored (r : DriftIgnore) (res : Resource) : Bool :=
  let isExclusionRule :=
    r.resExclusionList.contains (res.TerraformType ++ "." ++ res.TerraformId)
  let isExclusionWildcardRule :=
    r.resExclusionList.contains (res.TerraformType ++ ".*")
  isExclusionRule || isExclusionWildcardRule

/-- The body of the loop `RuleCheck` of `isExcluded` for one rule: `false` when
the loop continues with the next rule, `true` when it returns true. -/
def ruleCheck (unescape toLower : String → String) (rule : String)
    (changePath : List String) : Bool :=
  let path := escapableSplit unescape rule
  if path.length > changePath.length then false
  else
    (List.range path.length).all fun i =>
      !(path.getD i "" != toLower (changePath.getD i "") && path.getD i "" != "*")

/-- The method `isExcluded`: true as soon as one rule passes `ruleCheck`. -/
def isExcluded (unescape toLower : String → String) (rules : List String)
    (changePath : List String) : Bool :=
  rules.any fun rule => ruleCheck unescape toLower rule changePath

/-- The method `IsFieldIgnored`.  A key that is absent from the map gives the nil
slice, which is the empty list here. -/
def IsFieldIgnored (unescape toLower : String → String) (r : DriftIgnore)
    (res : Resource) (path : List String) : Bool :=
  let exclusionRules :=
    r.driftExclusionList.lookup (res.TerraformType ++ "." ++ res.TerraformId)
  let exclusionWildcardRules :=
    r.driftExclusionList.lookup (res.TerraformType ++ ".*")
  if !exclusionRules.isSome && !exclusionWildcardRules.isSome then false
  else
    let rules :=
      if !exclusionRules.isSome then exclusionWildcardRules.getD []
      else exclusionRules.getD []
    if isExcluded unescape toLower rules path then true else false

end filter

/-! ## Reference definitions used to state the claims -/

namespace filter

/-- The escaping rule in the words of the specification, for a character `c`
whose immediately preceding character is `p1` and whose second preceding
character is `p2` (`none` when the line has no such character): a `.` is a
separator unless the preceding character is a backslash that is not itself
preceded by a backslash. -/
def specSeparator (p2 p1 : Option Char) (c : Char) : Bool :=
  c == '.' && !(p1 == some '\\' && p2 != some '\\')

/-- The escaping rule restricted to the dots that have a preceding character: the
rule of `specSeparator`, and the dot is not the first character of the line. -/
def innerSeparator (p2 p1 : Option Char) (c : Char) : Bool :=
  p1.isSome && specSeparator p2 p1 c

/-- Cut a list of characters at the characters that `sep` declares separators;
`p2` and `p1` are the two characters before the rest of the line, `cur` is the
piece being read.  The separators themselves belong to no piece. -/
def cutWith (sep : Option Char → Option Char → Char → Bool) :
    Option Char → Option Char → List Char → List Char → List (List Char)
  | _, _, cur, [] => [cur]
  | p2, p1, cur, c :: cs =>
    if sep p2 p1 c then cur :: cutWith sep p1 (some c) [] cs
    else cutWith sep p1 (some c) (cur ++ [c]) cs

/-- The ordered list of the pieces of a line between consecutive separators. -/
def piecesBetween (sep : Option Char → Option Char → Char → Bool) (line : String) :
    List (List Char) :=
  cutWith sep none none [] line.data

/-- The split the specification describes: the pieces between the separators of
`specSeparator`, each passed through `unescape`. -/
def specSplit (unescape : String → String) (line : String) : List String :=
  (piecesBetween specSeparator line).map fun p => unescape (String.mk p)

/-- Remove the last piece when it is empty. -/
def dropTrailingEmpty (pieces : List (List Char)) : List (List Char) :=
  if pieces.getLast? = some [] then pieces.dropLast else pieces

/-- The driftignore escaping convention for one segment: a literal `.` is
written backslash-dot and a literal backslash is written backslash-backslash. -/
def escapeChars : List Char → List Char
  | [] => []
  | c :: cs => if c = '.' ∨ c = '\\' then '\\' :: c :: escapeChars cs else c :: escapeChars cs

/-- The escaping convention on strings. -/
def Escape (s : String) : String :=
  String.mk (escapeChars s.data)

/-- A list of characters in which some backslash is immediately followed by a
dot. -/
def hasBackslashDot : List Char → Bool
  | c :: d :: cs => (c == '\\' && d == '.') || hasBackslashDot (d :: cs)
  | _ => false

/-- The matching relation of the specification between a pattern (a list of
segments) and a diff path: the pattern is not longer than the path and every
pattern segment is the lower-cased path segment at the same place, or `*`. -/
def specMatches (toLower : String → String) (pattern diffPath : List String) : Prop :=
  pattern.length ≤ diffPath.length ∧
    ∀ k, k < pattern.length →
      pattern.getD k "" = toLower (diffPath.getD k "") ∨ pattern.getD k "" = "*"

instance (toLower : String → String) (pattern diffPath : List String) :
    Decidable (specMatches toLower pattern diffPath) := by
  unfold specMatches
  exact inferInstance

/-- The pattern that `isExcluded` uses for a field-exclusion line: the segments
after the second one are joined with dots when the line is read, and the joined
text is split again when a path is tested. -/
def rulePattern (unescape : String → String) (line : String) : List String :=
  escapableSplit unescape (strings.Join ((escapableSplit unescape line).drop 2) ".")

/-- The field-exclusion lines registered under the map key `key`: the lines
with more than two segments whose first two segments, joined by a dot, are the
key. -/
def fieldLinesFor (unescape : String → String) (lines : List String) (key : String) :
    List String :=
  lines.filter fun line =>
    decide (2 < (escapableSplit unescape line).length) &&
      strings.Join ((escapableSplit unescape line).take 2) "." == key

/-- The field-exclusion lines that apply to a resource: those registered under
`type.id` when there is one, else those registered under `type.*`. -/
def applicableLines (unescape : String → String) (lines : List String) (res : Resource) :
    List String :=
  if fieldLinesFor unescape lines (res.TerraformType ++ "." ++ res.TerraformId) = [] then
    fieldLinesFor unescape lines (res.TerraformType ++ ".*")
  else fieldLinesFor unescape lines (res.TerraformType ++ "." ++ res.TerraformId)

end filter

/-! ## pkg/middlewares/google_compute_instance_group_manager_expander.go -/

namespace google

/-- Modelled from the spec: the constant `GoogleComputeInstanceGroupResourceType`
of package `google` is declared outside the sampled sources; it names the
resource type `google_compute_instance_group`. -/
def GoogleComputeInstanceGroupResourceType : String := "google_compute_instance_group"

/-- Modelled from the spec: the constant
`GoogleComputeInstanceGroupManagerResourceType` of package `google` is declared
outside the sampled sources; it names the resource type
`google_compute_instance_group_manager`. -/
def GoogleComputeInstanceGroupManagerResourceType : String :=
  "google_compute_instance_group_manager"

end google

namespace middlewares

/-- Modelled from the spec: the struct `resource.Resource` is declared outside
the sampled sources.  A resource has a type (returned by `ResourceType()`) and an
id, and an attribute tree read through path-addressed accessors that return an
explicit absent value when the path does not exist.  The tree is kept as the list of its string-valued
attributes, the only ones `GetString` can return.  A value of this type stands
for the pointer `*resource.Resource` together with the resource it points to. -/
structure Resource where
  Id : String
  ResourceType : String
  Attrs : List (String × String)
deriving DecidableEq, Repr

/-- Modelled from the spec: the accessor `Attributes().GetString(path)` is
declared outside the sampled sources; it returns an explicit absent value when
the path does not exist.  `none` is the nil pointer the accessor returns for an
absent attribute. -/
def Resource.GetString (r : Resource) (path : String) : Option String :=
  r.Attrs.lookup path

/-- What a run of `Execute` leaves behind: the two slices the arguments point to
and the returned error (`none` is the nil error). -/
structure Outcome where
  remoteResources : List Resource
  resourcesFromState : List Resource
  err : Option String
deriving DecidableEq, Repr

/-- The first loop of `Execute`: the remote resources of type
`google_compute_instance_group`, in order. -/
def collectInstanceGroups (remoteResources : List Resource) : List Resource :=
  remoteResources.foldl
    (fun instanceGroups remoteResource =>
      if remoteResource.ResourceType != google.GoogleComputeInstanceGroupResourceType then
        instanceGroups
      else instanceGroups ++ [remoteResource])
    []

/-- The inner loop of `Execute` over `instanceGroups`, for a manager whose name
pointer is `name`.  The condition `n != nil && *n == *name` is evaluated left to
right: `*name` is read only when `n` is not nil, and reading it when `name` is
nil is a nil-pointer dereference, the result `none`. -/
def importGroups (name : Option String) :
    List Resource → List Resource → Option (List Resource)
  | [], newStateResources => some newStateResources
  | group :: rest, newStateResources =>
    match group.GetString "name" with
    | none => importGroups name rest newStateResources
    | some n =>
      match name with
      | none => none
      | some nm =>
        if n = nm then importGroups name rest (newStateResources ++ [group])
        else importGroups name rest newStateResources

/-- The second loop of `Execute` over the state resources. -/
def expandState (instanceGroups : List Resource) :
    List Resource → List Resource → Option (List Resource)
  | [], newStateResources => some newStateResources
  | stateResource :: rest, newStateResources =>
    if stateResource.ResourceType != google.GoogleComputeInstanceGroupManagerResourceType then
      expandState instanceGroups rest (newStateResources ++ [stateResource])
    else
      match importGroups (stateResource.GetString "name") instanceGroups
          (newStateResources ++ [stateResource]) with
      | none => none
      | some next => expandState instanceGroups rest next

/-- The method `Execute`: `none` when the run stops on a nil-pointer
dereference, else the outcome, in which the state slice has been replaced and the
error is nil. -/
def Execute (remoteResources resourcesFromState : List Resource) : Option Outcome :=
  match expandState (collectInstanceGroups remoteResources) resourcesFromState [] with
  | none => none
  | some newStateResources =>
    some { remoteResources := remoteResources
           resourcesFromState := newStateResources
           err := none }

end middlewares

namespace filter

/-- The character just before index `k` of a line, `none` at the start. -/
def prev1 (line : List Char) (k : Nat) : Option Char :=
  if k ≥ 1 then line.get? (k - 1) else none

/-- The character two places before index `k` of a line, `none` when there is
none. -/
def prev2 (line : List Char) (k : Nat) : Option Char :=
  if k ≥ 2 then line.get? (k - 2) else none

/-- The last character of the text, when there is one, is encoded on one byte
in UTF-8 (it is an ASCII character). -/
def lastCharOneByte (line : String) : Bool :=
  match line.data.getLast? with
  | none => true
  | some c => c.utf8Size == 1

/-- The characters of the escaped segments joined by dots. -/
def joinChars : List (List Char) → List Char
  | [] => []
  | [s] => escapeChars s
  | s :: t :: rest => escapeChars s ++ '.' :: joinChars (t :: rest)

end filter

namespace middlewares

/-- The instance groups whose `name` attribute is present and equal to `name`,
in their order. -/
def matchingGroups (instanceGroups : List Resource) (name : String) : List Resource :=
  instanceGroups.filter fun group => group.GetString "name" == some name

/-- What one state resource contributes to the new state set: the resource
itself, followed, when it is an instance group manager with a name, by the
instance groups of that name. -/
def expansion (instanceGroups : List Resource) (stateResource : Resource) : List Resource :=
  if stateResource.ResourceType = google.GoogleComputeInstanceGroupManagerResourceType then
    match stateResource.GetString "name" with
    | some name => stateResource :: matchingGroups instanceGroups name
    | none => [stateResource]
  else [stateResource]

/-- The name pointer of a manager can be compared with the names of the instance
groups without a nil dereference: it is not nil, or no instance group has a
name. -/
def safeName (instanceGroups : List Resource) (name : Option String) : Bool :=
  name.isSome || instanceGroups.all fun group => (group.GetString "name").isNone

/-- A state resource on which the second loop of `Execute` does not stop: it is
not a manager, or its name is safe. -/
def safeResource (instanceGroups : List Resource) (stateResource : Resource) : Bool :=
  stateResource.ResourceType != google.GoogleComputeInstanceGroupManagerResourceType ||
    safeName instanceGroups (stateResource.GetString "name")

/-- An instance group named `a`, as listed by the provider. -/
def groupA : Resource :=
  { Id := "g", ResourceType := "google_compute_instance_group", Attrs := [("name", "a")] }

/-- An instance group manager named `a`, as read from the state. -/
def managerA : Resource :=
  { Id := "m", ResourceType := "google_compute_instance_group_manager",
    Attrs := [("name", "a")] }

/-- A remote resource of another type. -/
def bucketB : Resource :=
  { Id := "b", ResourceType := "google_storage_bucket", Attrs := [] }

end middlewares

/-! ## pkg/output/printer.go -/

namespace output

/-- The interface `Printer` with its two implementations, the structs
`VoidPrinter` and `ConsolePrinter`; both structs are empty, so a printer is
known by its kind. -/
inductive Printer where
  | VoidPrinter
  | ConsolePrinter
deriving DecidableEq, Repr

/-- The constructor `NewConsolePrinter`. -/
def NewConsolePrinter : Printer := Printer.ConsolePrinter

/-- The method `Printf` of the two printers, as the list of the texts it writes
to the standard output.  The void printer has an empty body; the console printer
calls Go `fmt.Printf`, which writes the formatted text `sprintf format args`
(the formatting of the Go library is a parameter). -/
def Printer.Printf {α : Type} (sprintf : String → List α → String) :
    Printer → String → List α → List String
  | Printer.VoidPrinter, _, _ => []
  | Printer.ConsolePrinter, format, args => [sprintf format args]

end output

/-! ## pkg/cmd/scan/output/json.go -/

namespace scanoutput

/-- The struct `JSON` of package `output` in `pkg/cmd/scan/output`. -/
structure JSON where
  path : String
deriving DecidableEq, Repr

/-- The constructor `NewJSON`. -/
def NewJSON (path : String) : JSON := { path := path }

/-- The method `isStdOut`. -/
def JSON.isStdOut (c : JSON) : Bool :=
  c.path == "/dev/stdout" || c.path == "stdout"

/-- The method `GetInfoPrinter`. -/
def JSON.GetInfoPrinter (c : JSON) : output.Printer :=
  if c.isStdOut then output.Printer.VoidPrinter else output.NewConsolePrinter

/-- Where `Write` sends the report: the standard output stream `os.Stdout`, or
the file opened at a path. -/
inductive Destination where
  | Stdout
  | File (path : String)
deriving DecidableEq, Repr

/-- The method `Write`.  The operating system and the Go library are
parameters: `OpenFile path` is the error of `os.OpenFile`, if any;
`MarshalIndent analysis` is the result of `json.MarshalIndent`; `fileWrite` is
the error of `file.Write`, if any.  The result is the returned error, or, when
the error is nil, the destination and the text written to it. -/
def JSON.Write {Analysis : Type} (c : JSON) (OpenFile : String → Option String)
    (MarshalIndent : Analysis → Except String String)
    (fileWrite : Destination → String → Option String) (analysis : Analysis) :
    Except String (Destination × String) :=
  let opened : Except String Destination :=
    if !c.isStdOut then
      match OpenFile c.path with
      | some err => Except.error err
      | none => Except.ok (Destination.File c.path)
    else Except.ok Destination.Stdout
  match opened with
  | Except.error err => Except.error err
  | Except.ok file =>
    match MarshalIndent analysis with
    | Except.error err => Except.error err
    | Except.ok json =>
      match fileWrite file json with
      | some err => Except.error err
      | none => Except.ok (file, json)

end scanoutput

/-! ## Reference definitions for the middleware -/

namespace middlewares

/-- Every instance group manager of a state set has a `name` attribute. -/
def managersNamed (resourcesFromState : List Resource) : Bool :=
  resourcesFromState.all fun stateResource =>
    stateResource.ResourceType != google.GoogleComputeInstanceGroupManagerResourceType ||
      (stateResource.GetString "name").isSome

/-- The new state set in the words of the reference definition: walk the state
set in order and emit each state resource followed, only when it is an instance
group manager, by the remote resources of type `google_compute_instance_group`
whose name equals the name of the manager, in their order in the remote set. -/
def referenceState (remoteResources resourcesFromState : List Resource) : List Resource :=
  resourcesFromState.flatMap fun stateResource =>
    stateResource ::
      if stateResource.ResourceType = google.GoogleComputeInstanceGroupManagerResourceType then
        remoteResources.filter fun remoteResource =>
          remoteResource.ResourceType == google.GoogleComputeInstanceGroupResourceType &&
            remoteResource.GetString "name" == stateResource.GetString "name"
      else []

/-- The pairs made of an instance group manager of the state set and of a remote
instance group of the same name, a resource listed twice counting twice. -/
def matchingPairs (remoteResources resourcesFromState : List Resource) :
    List (Resource × Resource) :=
  (resourcesFromState.flatMap fun stateResource =>
      remoteResources.map fun remoteResource => (stateResource, remoteResource)).filter
    fun pair =>
      pair.1.ResourceType == google.GoogleComputeInstanceGroupManagerResourceType &&
        (pair.2.ResourceType == google.GoogleComputeInstanceGroupResourceType &&
          pair.2.GetString "name" == pair.1.GetString "name")

/-- An instance group manager without a `name` attribute. -/
def managerNoName : Resource :=
  { Id := "n", ResourceType := "google_compute_instance_group_manager", Attrs := [] }

/-- An instance group without a `name` attribute. -/
def groupNoName : Resource :=
  { Id := "h", ResourceType := "google_compute_instance_group", Attrs := [] }

end middlewares

/-! ## Reference definition for two runs of the middleware -/

namespace middlewares

/-- The remote instance groups that one run of `Execute` on the remote set
`remoteResources` injects right after the state resource `stateResource`: for a
manager of instance groups that has a name, the remote instance groups of that
name, in their order in the remote set; nothing for any other resource. -/
def injectedGroups (remoteResources : List Resource) (stateResource : Resource) :
    List Resource :=
  if stateResource.ResourceType = google.GoogleComputeInstanceGroupManagerResourceType then
    match stateResource.GetString "name" with
    | some name => matchingGroups (collectInstanceGroups remoteResources) name
    | none => []
  else []

end middlewares

/-! ## The rule set built by readIgnoreFile -/

namespace filter

theorem readIgnoreLine_short (unescape : String → String) (r : DriftIgnore) (line : String)
    (h : (escapableSplit unescape line).length < 2) :
    readIgnoreLine unescape r line = r := by
  simp [readIgnoreLine, h]

theorem readIgnoreLine_two (unescape : String → String) (r : DriftIgnore) (line : String)
    (h : (escapableSplit unescape line).length = 2) :
    readIgnoreLine unescape r line =
      { r with
        resExclusionList :=
          strings.Join (escapableSplit unescape line) "." :: r.resExclusionList } := by
  simp [readIgnoreLine, h]

theorem readIgnoreLine_field (unescape : String → String) (r : DriftIgnore) (line : String)
    (h : 2 < (escapableSplit unescape line).length) :
    readIgnoreLine unescape r line =
      { r with
        driftExclusionList :=
          (strings.Join ((escapableSplit unescape line).take 2) ".",
            (r.driftExclusionList.lookup
              (strings.Join ((escapableSplit unescape line).take 2) ".")).getD [] ++
              [strings.Join ((escapableSplit unescape line).drop 2) "."]) ::
            r.driftExclusionList } := by
  have h1 : ¬ (escapableSplit unescape line).length < 2 := by omega
  have h2 : ¬ (escapableSplit unescape line).length = 2 := by omega
  simp [readIgnoreLine, h1, h2]

theorem readIgnoreFile_cons (unescape : String → String) (r : DriftIgnore) (line : String)
    (lines : List String) :
    readIgnoreFile unescape r (line :: lines) =
      readIgnoreFile unescape (readIgnoreLine unescape r line) lines := rfl

theorem readIgnoreFile_filter (unescape : String → String) (lines : List String) :
    ∀ r : DriftIgnore,
      readIgnoreFile unescape r lines =
        readIgnoreFile unescape r
          (lines.filter fun line => decide (2 ≤ (escapableSplit unescape line).length)) := by
  induction lines with
  | nil => intro r; rfl
  | cons line rest ih =>
    intro r
    by_cases h : 2 ≤ (escapableSplit unescape line).length
    · rw [List.filter_cons_of_pos (by simpa using h), readIgnoreFile_cons, readIgnoreFile_cons]
      exact ih _
    · rw [List.filter_cons_of_neg (by simpa using h), readIgnoreFile_cons,
        readIgnoreLine_short unescape r line (by omega)]
      exact ih r

theorem mem_resExclusionList (unescape : String → String) (key : String)
    (lines : List String) :
    ∀ r : DriftIgnore,
      key ∈ (readIgnoreFile unescape r lines).resExclusionList ↔
        key ∈ r.resExclusionList ∨
          ∃ line ∈ lines, (escapableSplit unescape line).length = 2 ∧
            strings.Join (escapableSplit unescape line) "." = key := by
  induction lines with
  | nil => intro r; simp [readIgnoreFile]
  | cons line rest ih =>
    intro r
    rw [readIgnoreFile_cons, ih]
    rcases Nat.lt_trichotomy (escapableSplit unescape line).length 2 with h | h | h
    · rw [readIgnoreLine_short unescape r line h]
      have : ¬ (escapableSplit unescape line).length = 2 := by omega
      simp [this]
    · rw [readIgnoreLine_two unescape r line h]
      simp only [List.mem_cons, exists_eq_or_imp, h, true_and]
      constructor
      · rintro ((h1 | h1) | h1)
        · exact Or.inr (Or.inl h1.symm)
        · exact Or.inl h1
        · exact Or.inr (Or.inr h1)
      · rintro (h1 | h1 | h1)
        · exact Or.inl (Or.inr h1)
        · exact Or.inl (Or.inl h1.symm)
        · exact Or.inr h1
    · rw [readIgnoreLine_field unescape r line h]
      have : ¬ (escapableSplit unescape line).length = 2 := by omega
      simp [this]

theorem lookup_driftExclusionList (unescape : String → String) (key : String)
    (lines : List String) :
    ∀ r : DriftIgnore,
      (readIgnoreFile unescape r lines).driftExclusionList.lookup key =
        if fieldLinesFor unescape lines key = [] then r.driftExclusionList.lookup key
        else
          some ((r.driftExclusionList.lookup key).getD [] ++
            (fieldLinesFor unescape lines key).map fun line =>
              strings.Join ((escapableSplit unescape line).drop 2) ".") := by
  induction lines with
  | nil => intro r; simp [readIgnoreFile, fieldLinesFor]
  | cons line rest ih =>
    intro r
    rw [readIgnoreFile_cons, ih]
    by_cases h : 2 < (escapableSplit unescape line).length
    · rw [readIgnoreLine_field unescape r line h]
      by_cases hk : strings.Join ((escapableSplit unescape line).take 2) "." = key
      · have hf : fieldLinesFor unescape (line :: rest) key =
            line :: fieldLinesFor unescape rest key := by
          simp [fieldLinesFor, h, hk]
        rw [hf]
        simp only [List.lookup_cons, hk, beq_self_eq_true, Option.getD_some, List.map_cons,
          reduceCtorEq, if_false]
        split
        · rename_i h0
          simp [h0]
        · simp
      · have hf : fieldLinesFor unescape (line :: rest) key =
            fieldLinesFor unescape rest key := by
          simp [fieldLinesFor, hk]
        have hb : (key == strings.Join ((escapableSplit unescape line).take 2) ".") = false := by
          simpa using fun h' => hk h'.symm
        rw [hf]
        simp only [List.lookup_cons, hb]
    · have hf : fieldLinesFor unescape (line :: rest) key =
          fieldLinesFor unescape rest key := by
        simp [fieldLinesFor, h]
      rw [hf]
      rcases Nat.lt_or_ge (escapableSplit unescape line).length 2 with h2 | h2
      · rw [readIgnoreLine_short unescape r line h2]
      · rw [readIgnoreLine_two unescape r line (by omega)]

end filter

/-! ## Resource exclusions -/

namespace filter

theorem append_cons_cancel {α : Type} (x : α) :
    ∀ a c b d : List α, x ∉ a → x ∉ c → a ++ x :: b = c ++ x :: d → a = c ∧ b = d := by
  intro a
  induction a with
  | nil =>
    intro c b d _ hc h
    cases c with
    | nil => simpa using h
    | cons y ys =>
      simp only [List.nil_append, List.cons_append, List.cons.injEq] at h
      exact absurd (by simp [h.1]) hc
  | cons z zs ih =>
    intro c b d ha hc h
    cases c with
    | nil =>
      simp only [List.nil_append, List.cons_append, List.cons.injEq] at h
      exact absurd (by simp [h.1]) ha
    | cons y ys =>
      simp only [List.cons_append, List.cons.injEq] at h
      have ha2 : x ∉ zs := fun hm => ha (List.mem_cons_of_mem _ hm)
      have hc2 : x ∉ ys := fun hm => hc (List.mem_cons_of_mem _ hm)
      obtain ⟨h1, h2⟩ := ih ys b d ha2 hc2 h.2
      exact ⟨by rw [h.1, h1], h2⟩

theorem key_cancel (t i ty id : String) (ht : '.' ∉ t.data) (hty : '.' ∉ ty.data)
    (h : t ++ "." ++ i = ty ++ "." ++ id) : t = ty ∧ i = id := by
  have hd := congrArg String.data h
  simp only [String.data_append] at hd
  have hd2 : t.data ++ '.' :: i.data = ty.data ++ '.' :: id.data := by
    simpa using hd
  obtain ⟨h1, h2⟩ := append_cons_cancel '.' _ _ _ _ ht hty hd2
  exact ⟨String.ext h1, String.ext h2⟩

theorem wildcard_key (s : String) : s ++ "." ++ "*" = s ++ ".*" := by
  rw [String.append_assoc]
  rfl

theorem isResourceIgnored_iff_key (unescape : String → String) (lines : List String)
    (res : Resource) :
    IsResourceIgnored (NewDriftIgnore unescape lines) res = true ↔
      ∃ line ∈ lines, ∃ t i, escapableSplit unescape line = [t, i] ∧
        (t ++ "." ++ i = res.TerraformType ++ "." ++ res.TerraformId ∨
          t ++ "." ++ i = res.TerraformType ++ ".*") := by
  have hc : ∀ (l : List String) (k : String), l.contains k = true ↔ k ∈ l := by
    intro l k
    simp
  simp only [IsResourceIgnored, NewDriftIgnore, Bool.or_eq_true, hc]
  rw [mem_resExclusionList, mem_resExclusionList]
  simp only [List.not_mem_nil, false_or]
  constructor
  · rintro (⟨line, hl, h2, hj⟩ | ⟨line, hl, h2, hj⟩)
    all_goals
      obtain ⟨t, i, hs⟩ := List.length_eq_two.mp h2
      rw [hs] at hj
      refine ⟨line, hl, t, i, hs, ?_⟩
    · exact Or.inl hj
    · exact Or.inr hj
  · rintro ⟨line, hl, t, i, hs, h | h⟩
    · exact Or.inl ⟨line, hl, by rw [hs]; rfl, by rw [hs]; exact h⟩
    · exact Or.inr ⟨line, hl, by rw [hs]; rfl, by rw [hs]; exact h⟩

end filter

namespace filter

theorem ruleCheck_iff (unescape toLower : String → String) (rule : String)
    (changePath : List String) :
    ruleCheck unescape toLower rule changePath = true ↔
      specMatches toLower (escapableSplit unescape rule) changePath := by
  unfold ruleCheck specMatches
  by_cases h : (escapableSplit unescape rule).length > changePath.length
  · simp only [h, if_true]
    constructor
    · intro h'
      exact absurd h' (by simp)
    · intro h'
      omega
  · simp only [h, if_false, List.all_eq_true, List.mem_range, Bool.not_eq_true',
      Bool.and_eq_false_iff, bne_eq_false_iff_eq]
    constructor
    · intro h'
      exact ⟨by omega, h'⟩
    · intro h'
      exact h'.2

theorem isExcluded_iff (unescape toLower : String → String) (rules : List String)
    (changePath : List String) :
    isExcluded unescape toLower rules changePath = true ↔
      ∃ rule ∈ rules, specMatches toLower (escapableSplit unescape rule) changePath := by
  simp only [isExcluded, List.any_eq_true, ruleCheck_iff]

theorem isFieldIgnored_cases (unescape toLower : String → String) (r : DriftIgnore)
    (res : Resource) (path : List String) :
    IsFieldIgnored unescape toLower r res path =
      match r.driftExclusionList.lookup (res.TerraformType ++ "." ++ res.TerraformId),
        r.driftExclusionList.lookup (res.TerraformType ++ ".*") with
      | some rules, _ => isExcluded unescape toLower rules path
      | none, some rules => isExcluded unescape toLower rules path
      | none, none => false := by
  unfold IsFieldIgnored
  cases r.driftExclusionList.lookup (res.TerraformType ++ "." ++ res.TerraformId) <;>
    cases r.driftExclusionList.lookup (res.TerraformType ++ ".*") <;> simp

theorem isFieldIgnored_applicable (unescape toLower : String → String) (lines : List String)
    (res : Resource) (path : List String) :
    IsFieldIgnored unescape toLower (NewDriftIgnore unescape lines) res path =
      isExcluded unescape toLower
        ((applicableLines unescape lines res).map fun line =>
          strings.Join ((escapableSplit unescape line).drop 2) ".") path := by
  rw [isFieldIgnored_cases]
  simp only [NewDriftIgnore, lookup_driftExclusionList, List.lookup_nil, Option.getD_none,
    List.nil_append, applicableLines]
  by_cases h1 : fieldLinesFor unescape lines (res.TerraformType ++ "." ++ res.TerraformId) = []
  · by_cases h2 : fieldLinesFor unescape lines (res.TerraformType ++ ".*") = []
    · simp [h1, h2, isExcluded]
    · simp [h1, h2]
  · simp [h1]

end filter

/-! ## escapableSplit cuts a ln at its separators -/

namespace filter

theorem byteLen_append (a b : List Char) : byteLen (a ++ b) = byteLen a + byteLen b := by
  simp [byteLen]

theorem byteLen_cons (c : Char) (cs : List Char) :
    byteLen (c :: cs) = c.utf8Size + byteLen cs := by
  simp [byteLen]

theorem byteLen_pos (cs : List Char) (h : cs ≠ []) : 0 < byteLen cs := by
  cases cs with
  | nil => exact absurd rfl h
  | cons c cs =>
    rw [byteLen_cons]
    have := Char.utf8Size_pos c
    omega

theorem separator_cond_iff (ln : List Char) (i : Nat) (c : Char)
    (hi : ln.get? i = some c) :
    (ln.get? i = some '.' ∧
      ((i ≥ 1 ∧ ln.get? (i - 1) ≠ some '\\') ∨
        (i ≥ 2 ∧ ln.get? (i - 1) = some '\\' ∧ ln.get? (i - 2) = some '\\'))) ↔
      innerSeparator (prev2 ln i) (prev1 ln i) c = true := by
  have hlt : i < ln.length := by
    by_contra hge
    rw [List.get?_eq_none.mpr (by omega)] at hi
    cases hi
  rw [hi]
  unfold innerSeparator specSeparator prev1 prev2
  simp only [List.get?_eq_getElem?]
  rcases i with _ | _ | j
  · simp
  · obtain ⟨d, hd⟩ : ∃ d, ln[0]? = some d :=
      ⟨_, List.getElem?_eq_getElem (by omega : 0 < ln.length)⟩
    simp only [hd]
    by_cases h1 : d = '\\' <;> simp [h1]
  · obtain ⟨d, hd⟩ : ∃ d, ln[j + 1]? = some d :=
      ⟨_, List.getElem?_eq_getElem (by omega : j + 1 < ln.length)⟩
    obtain ⟨e, he⟩ : ∃ e, ln[j]? = some e :=
      ⟨_, List.getElem?_eq_getElem (by omega : j < ln.length)⟩
    simp only [Nat.add_sub_cancel, hd, he]
    by_cases h1 : d = '\\' <;> by_cases h2 : e = '\\' <;> simp [h1, h2]

end filter

namespace filter

theorem get?_lt (ln : List Char) (i : Nat) (c : Char) (hi : ln.get? i = some c) :
    i < ln.length := by
  by_contra hge
  rw [List.get?_eq_none.mpr (by omega)] at hi
  cases hi

theorem drop_eq_cons (ln : List Char) (i : Nat) (c : Char) (hi : ln.get? i = some c) :
    ln.drop i = c :: ln.drop (i + 1) := by
  have hlt := get?_lt ln i c hi
  rw [List.drop_eq_getElem_cons hlt]
  rw [List.get?_eq_getElem?, List.getElem?_eq_getElem hlt] at hi
  cases hi
  rfl

theorem last_byte_iff (ln : List Char) (i : Nat) (c : Char) (hi : ln.get? i = some c) :
    byteLen (ln.take i) + 1 = byteLen ln ↔ i + 1 = ln.length ∧ c.utf8Size = 1 := by
  have hlt := get?_lt ln i c hi
  have hsplit : byteLen ln = byteLen (ln.take i) + (c.utf8Size + byteLen (ln.drop (i + 1))) := by
    conv_lhs => rw [← List.take_append_drop i ln, drop_eq_cons ln i c hi]
    rw [byteLen_append, byteLen_cons]
  have hpos := Char.utf8Size_pos c
  constructor
  · intro h
    by_cases hnil : ln.drop (i + 1) = []
    · have hlen : ln.length ≤ i + 1 := List.drop_eq_nil_iff.mp hnil
      have h0 : byteLen ([] : List Char) = 0 := rfl
      rw [hnil, h0] at hsplit
      constructor <;> omega
    · have := byteLen_pos _ hnil
      omega
  · rintro ⟨h1, h2⟩
    have hnil : ln.drop (i + 1) = [] := List.drop_eq_nil_iff.mpr (by omega)
    have h0 : byteLen ([] : List Char) = 0 := rfl
    rw [hnil, h0] at hsplit
    omega

theorem step_separator (unescape : String → String) (ln : List Char)
    (st : List String × Nat) (i : Nat) (c : Char) (hi : ln.get? i = some c)
    (hs : innerSeparator (prev2 ln i) (prev1 ln i) c = true) :
    escapableSplitStep unescape ln st i =
      (st.1 ++ [unescape (String.mk ((ln.take i).drop st.2))], i + 1) := by
  unfold escapableSplitStep
  rw [if_pos ((separator_cond_iff ln i c hi).mpr hs)]

theorem step_other (unescape : String → String) (ln : List Char)
    (st : List String × Nat) (i : Nat) (c : Char) (hi : ln.get? i = some c)
    (hs : innerSeparator (prev2 ln i) (prev1 ln i) c = false) :
    escapableSplitStep unescape ln st i =
      if i + 1 = ln.length ∧ c.utf8Size = 1 then
        (st.1 ++ [unescape (String.mk (ln.drop st.2))], st.2)
      else st := by
  unfold escapableSplitStep
  have hn : ¬ (ln.get? i = some '.' ∧
      ((i ≥ 1 ∧ ln.get? (i - 1) ≠ some '\\') ∨
        (i ≥ 2 ∧ ln.get? (i - 1) = some '\\' ∧ ln.get? (i - 2) = some '\\'))) := by
    intro h
    have := (separator_cond_iff ln i c hi).mp h
    rw [hs] at this
    cases this
  rw [if_neg hn]
  by_cases hb : byteLen (ln.take i) + 1 = byteLen ln
  · rw [if_pos hb, if_pos ((last_byte_iff ln i c hi).mp hb)]
  · rw [if_neg hb, if_neg (fun h => hb ((last_byte_iff ln i c hi).mpr h))]

theorem prev2_succ (ln : List Char) (k : Nat) : prev2 ln (k + 1) = prev1 ln k := by
  unfold prev1 prev2
  rcases k with _ | j
  · simp
  · simp

theorem prev1_succ (ln : List Char) (k : Nat) (c : Char) (hi : ln.get? k = some c) :
    prev1 ln (k + 1) = some c := by
  unfold prev1
  simpa using hi

theorem take_succ_drop (ln : List Char) (k lwe : Nat) (c : Char) (hi : ln.get? k = some c)
    (hle : lwe ≤ k) : (ln.take (k + 1)).drop lwe = (ln.take k).drop lwe ++ [c] := by
  rw [List.take_succ]
  rw [List.get?_eq_getElem?] at hi
  rw [hi]
  simp only [Option.toList]
  rw [List.drop_append_of_le_length (by
    rw [List.length_take]
    have := get?_lt ln k c (by rw [List.get?_eq_getElem?]; exact hi)
    omega)]

/-- The state of the loop of escapableSplit after the iterations at the indices
below `k`, for an index `k` of the line. -/
theorem fold_invariant (unescape : String → String) (ln : List Char) :
    ∀ k, k < ln.length →
      ∃ closed lwe,
        (List.range k).foldl (escapableSplitStep unescape ln) ([], 0) =
            (closed.map (fun p => unescape (String.mk p)), lwe) ∧
          lwe ≤ k ∧
          cutWith innerSeparator none none [] ln =
            closed ++ cutWith innerSeparator (prev2 ln k) (prev1 ln k)
              ((ln.take k).drop lwe) (ln.drop k) := by
  intro k
  induction k with
  | zero =>
    intro _
    exact ⟨[], 0, rfl, le_refl _, by simp [prev1, prev2]⟩
  | succ k ih =>
    intro hk
    obtain ⟨closed, lwe, hfold, hle, hcut⟩ := ih (by omega)
    have hi : ln.get? k = some (ln.get ⟨k, by omega⟩) := List.get?_eq_get (by omega)
    generalize ln.get ⟨k, by omega⟩ = c at hi
    rw [List.range_succ, List.foldl_append, hfold]
    simp only [List.foldl_cons, List.foldl_nil]
    rw [drop_eq_cons ln k c hi] at hcut
    by_cases hs : innerSeparator (prev2 ln k) (prev1 ln k) c = true
    · refine ⟨closed ++ [(ln.take k).drop lwe], k + 1, ?_, le_refl _, ?_⟩
      · rw [step_separator unescape ln _ k c hi hs]
        simp
      · rw [hcut]
        simp only [cutWith, hs, if_true]
        rw [prev2_succ, prev1_succ ln k c hi]
        have hnil : (ln.take (k + 1)).drop (k + 1) = [] :=
          List.drop_of_length_le (by simp)
        rw [hnil]
        simp
    · have hs2 : innerSeparator (prev2 ln k) (prev1 ln k) c = false := by
        simpa using hs
      refine ⟨closed, lwe, ?_, by omega, ?_⟩
      · rw [step_other unescape ln _ k c hi hs2]
        rw [if_neg (by omega)]
      · rw [hcut]
        simp only [cutWith, hs2]
        rw [prev2_succ, prev1_succ ln k c hi, take_succ_drop ln k lwe c hi hle]
        simp

end filter

namespace filter

theorem dropTrailingEmpty_closed (closed : List (List Char)) (cur : List Char) :
    dropTrailingEmpty (closed ++ [cur, []]) = closed ++ [cur] := by
  have h : closed ++ [cur, []] = (closed ++ [cur]) ++ [[]] := by simp
  rw [h]
  unfold dropTrailingEmpty
  rw [List.getLast?_concat, if_pos rfl, List.dropLast_concat]

theorem dropTrailingEmpty_open (closed : List (List Char)) (cur : List Char) (c : Char) :
    dropTrailingEmpty (closed ++ [cur ++ [c]]) = closed ++ [cur ++ [c]] := by
  unfold dropTrailingEmpty
  rw [List.getLast?_concat, if_neg (by simp)]

/-- The result of escapableSplit on any line: the pieces between the inner
separators, without an empty last piece when the last character of the line is
encoded on one byte, and without the last piece when it is encoded on more. -/
theorem escapableSplit_pieces (unescape : String → String) (line : String) :
    escapableSplit unescape line =
      (if lastCharOneByte line = true then
          dropTrailingEmpty (piecesBetween innerSeparator line)
        else (piecesBetween innerSeparator line).dropLast).map
        fun p => unescape (String.mk p) := by
  unfold escapableSplit piecesBetween lastCharOneByte
  generalize line.data = ln
  rcases Nat.eq_zero_or_pos ln.length with h0 | hpos
  · have hnil : ln = [] := List.length_eq_zero.mp h0
    subst hnil
    simp [cutWith, dropTrailingEmpty]
  · obtain ⟨k, hk⟩ : ∃ k, ln.length = k + 1 := ⟨ln.length - 1, by omega⟩
    obtain ⟨closed, lwe, hfold, hle, hcut⟩ := fold_invariant unescape ln k (by omega)
    have hi : ln.get? k = some (ln.get ⟨k, by omega⟩) := List.get?_eq_get (by omega)
    generalize ln.get ⟨k, by omega⟩ = c at hi
    have hdrop : ln.drop k = [c] := by
      rw [drop_eq_cons ln k c hi, List.drop_eq_nil_iff.mpr (by omega)]
    have hln : ln = ln.take k ++ [c] := by
      conv_lhs => rw [← List.take_append_drop k ln, hdrop]
    have hlast : ln.getLast? = some c := by
      rw [hln, List.getLast?_concat]
    rw [hk, List.range_succ, List.foldl_append, hfold, hcut, hdrop, hlast]
    simp only [List.foldl_cons, List.foldl_nil, beq_iff_eq]
    by_cases hs : innerSeparator (prev2 ln k) (prev1 ln k) c = true
    · have hc : c = '.' := by
        simp only [innerSeparator, specSeparator, Bool.and_eq_true, beq_iff_eq] at hs
        exact hs.2.1
      have hsz : c.utf8Size = 1 := by
        rw [hc]
        decide
      rw [step_separator unescape ln _ k c hi hs, if_pos hsz]
      simp only [cutWith, hs, if_true]
      rw [dropTrailingEmpty_closed]
      simp
    · have hs2 : innerSeparator (prev2 ln k) (prev1 ln k) c = false := by
        simpa using hs
      rw [step_other unescape ln _ k c hi hs2]
      simp only [cutWith, hs2, Bool.false_eq_true, if_false]
      by_cases hsz : c.utf8Size = 1
      · rw [if_pos ⟨by omega, hsz⟩, if_pos hsz, dropTrailingEmpty_open]
        have hd : ln.drop lwe = (ln.take k).drop lwe ++ [c] := by
          conv_lhs => rw [hln]
          rw [List.drop_append_of_le_length (by
            rw [List.length_take]
            omega)]
        simp [hd]
      · rw [if_neg (fun h => hsz h.2), if_neg hsz]
        simp

end filter

/-! ## Escaped segments joined by dots -/

namespace filter

theorem unescape_escapeChars (s : List Char) :
    stringutils.unescapeChars (escapeChars s) = s := by
  induction s with
  | nil => rfl
  | cons c cs ih =>
    by_cases hc : c = '.' ∨ c = '\\'
    · simp only [escapeChars, hc, if_true, stringutils.unescapeChars, true_and]
      rw [ih]
    · simp only [escapeChars, hc, if_false]
      have hne : c ≠ '\\' := fun h => hc (Or.inr h)
      cases hcs : escapeChars cs with
      | nil =>
        rw [hcs] at ih
        rw [← ih]
        simp [stringutils.unescapeChars]
      | cons d ds =>
        rw [hcs] at ih
        simp only [stringutils.unescapeChars, hne, false_and, if_false]
        rw [ih]

theorem escapeChars_id (s : List Char) (hd : '.' ∉ s) (hb : '\\' ∉ s) : escapeChars s = s := by
  induction s with
  | nil => rfl
  | cons c cs ih =>
    have h1 : c ≠ '.' := fun h => hd (by simp [h])
    have h2 : c ≠ '\\' := fun h => hb (by simp [h])
    simp only [escapeChars, h1, h2, or_self, if_false]
    rw [ih (fun h => hd (List.mem_cons_of_mem _ h)) (fun h => hb (List.mem_cons_of_mem _ h))]

theorem escapeChars_ne_nil (s : List Char) (h : s ≠ []) : escapeChars s ≠ [] := by
  cases s with
  | nil => exact absurd rfl h
  | cons c cs =>
    unfold escapeChars
    split <;> simp

theorem escapeChars_getLast? (s : List Char) : (escapeChars s).getLast? = s.getLast? := by
  induction s with
  | nil => rfl
  | cons c cs ih =>
    cases cs with
    | nil =>
      unfold escapeChars
      split <;> simp [escapeChars]
    | cons d ds =>
      have hne : escapeChars (d :: ds) ≠ [] := escapeChars_ne_nil _ (by simp)
      obtain ⟨e, he⟩ : ∃ e, (escapeChars (d :: ds)).getLast? = some e := by
        cases hx : (escapeChars (d :: ds)).getLast? with
        | none => exact absurd (List.getLast?_eq_none_iff.mp hx) hne
        | some e => exact ⟨e, rfl⟩
      have hsplit : ∀ pre : List Char,
          (pre ++ escapeChars (d :: ds)).getLast? = (d :: ds).getLast? := by
        intro pre
        rw [List.getLast?_append, ← ih, he]
        rfl
      have hlast : (c :: d :: ds).getLast? = (d :: ds).getLast? := by
        simp [List.getLast?_cons_cons]
      rw [hlast]
      by_cases hc : c = '.' ∨ c = '\\'
      · have : escapeChars (c :: d :: ds) = ['\\', c] ++ escapeChars (d :: ds) := by
          simp [escapeChars, hc]
        rw [this]
        exact hsplit _
      · have : escapeChars (c :: d :: ds) = [c] ++ escapeChars (d :: ds) := by
          simp [escapeChars, hc]
        rw [this]
        exact hsplit _

theorem innerSeparator_not_dot (p2 p1 : Option Char) (c : Char) (h : c ≠ '.') :
    innerSeparator p2 p1 c = false := by
  simp [innerSeparator, specSeparator, h]

/-- Reading the escaped form of a segment in which no backslash is followed by a
dot closes no piece. -/
theorem cutWith_escaped_segment (s : List Char) :
    ∀ (p2 p1 : Option Char) (cur rest : List Char),
      hasBackslashDot s = false →
      (s.head? = some '.' → p1 ≠ some '\\') →
      ∃ q2 q1,
        cutWith innerSeparator p2 p1 cur (escapeChars s ++ rest) =
            cutWith innerSeparator q2 q1 (cur ++ escapeChars s) rest ∧
          (s = [] → q1 = p1 ∧ q2 = p2) ∧
          (s ≠ [] → q1 = s.getLast? ∧ (q1 = some '\\' → q2 = some '\\')) := by
  induction s with
  | nil =>
    intro p2 p1 cur rest _ _
    exact ⟨p2, p1, by simp [escapeChars], fun _ => ⟨rfl, rfl⟩, fun h => absurd rfl h⟩
  | cons x s ih =>
    intro p2 p1 cur rest hbd hhead
    have hbd2 : hasBackslashDot s = false := by
      cases s with
      | nil => rfl
      | cons y ys =>
        simp only [hasBackslashDot, Bool.or_eq_false_iff] at hbd
        exact hbd.2
    have hnext : x = '\\' → s.head? ≠ some '.' := by
      intro hx hh
      cases s with
      | nil => simp at hh
      | cons y ys =>
        simp only [List.head?_cons, Option.some.injEq] at hh
        simp [hasBackslashDot, hx, hh] at hbd
    have hfinish : ∀ (r2 r1 : Option Char) (cur2 : List Char),
        r1 = some x → (x = '\\' → r2 = some '\\') →
        cur2 ++ escapeChars s = cur ++ escapeChars (x :: s) →
        cutWith innerSeparator p2 p1 cur (escapeChars (x :: s) ++ rest) =
          cutWith innerSeparator r2 r1 cur2 (escapeChars s ++ rest) →
        ∃ q2 q1,
          cutWith innerSeparator p2 p1 cur (escapeChars (x :: s) ++ rest) =
              cutWith innerSeparator q2 q1 (cur ++ escapeChars (x :: s)) rest ∧
            (x :: s = [] → q1 = p1 ∧ q2 = p2) ∧
            (x :: s ≠ [] → q1 = (x :: s).getLast? ∧ (q1 = some '\\' → q2 = some '\\')) := by
      intro r2 r1 cur2 hr1 hr2 hcur hstep
      obtain ⟨q2, q1, hq, hnil, hcons⟩ := ih r2 r1 cur2 rest hbd2 (by
        intro hh
        rw [hr1]
        intro hx
        exact hnext (by simpa using hx) hh)
      refine ⟨q2, q1, ?_, fun h => absurd h (by simp), fun _ => ?_⟩
      · rw [hstep, hq, hcur]
      · cases s with
        | nil =>
          obtain ⟨h1, h2⟩ := hnil rfl
          refine ⟨by rw [h1, hr1]; rfl, ?_⟩
          intro hq1
          rw [h1, hr1] at hq1
          rw [h2]
          exact hr2 (by simpa using hq1)
        | cons y ys =>
          obtain ⟨h1, h2⟩ := hcons (by simp)
          exact ⟨by rw [h1]; simp [List.getLast?_cons_cons], h2⟩
    by_cases hdot : x = '.'
    · have hp1 : p1 ≠ some '\\' := hhead (by simp [hdot])
      have hesc : escapeChars (x :: s) = '\\' :: '.' :: escapeChars s := by
        simp [escapeChars, hdot]
      refine hfinish (some '\\') (some '.') (cur ++ ['\\', '.']) (by rw [hdot])
        (fun h => absurd (hdot ▸ h) (by decide)) (by simp [hesc]) ?_
      rw [hesc]
      have hsep : innerSeparator p1 (some '\\') '.' = false := by
        simp only [innerSeparator, specSeparator]
        cases p1 with
        | none => rfl
        | some d =>
          have : d ≠ '\\' := fun h => hp1 (by rw [h])
          simp [this]
      simp only [List.cons_append, cutWith, innerSeparator_not_dot p2 p1 '\\' (by decide), hsep,
        Bool.false_eq_true, if_false, List.append_assoc, List.singleton_append]
      rfl
    · by_cases hbs : x = '\\'
      · have hesc : escapeChars (x :: s) = '\\' :: '\\' :: escapeChars s := by
          simp [escapeChars, hbs]
        refine hfinish (some '\\') (some '\\') (cur ++ ['\\', '\\']) (by rw [hbs])
          (fun _ => rfl) (by simp [hesc]) ?_
        rw [hesc]
        simp only [List.cons_append, cutWith, innerSeparator_not_dot _ _ '\\' (by decide),
          Bool.false_eq_true, if_false, List.append_assoc, List.singleton_append]
        rfl
      · have hesc : escapeChars (x :: s) = x :: escapeChars s := by
          simp [escapeChars, hdot, hbs]
        refine hfinish p1 (some x) (cur ++ [x]) rfl (fun h => absurd h hbs) (by simp [hesc]) ?_
        rw [hesc]
        simp only [List.cons_append, cutWith, innerSeparator_not_dot p2 p1 x hdot,
          Bool.false_eq_true, if_false]
        rfl

end filter

namespace filter

theorem innerSeparator_joining_dot (q2 q1 : Option Char) (h1 : q1.isSome = true)
    (h2 : q1 = some '\\' → q2 = some '\\') : innerSeparator q2 q1 '.' = true := by
  cases q1 with
  | none => simp at h1
  | some z =>
    by_cases hz : z = '\\'
    · have := h2 (by rw [hz])
      simp [innerSeparator, specSeparator, hz, this]
    · simp [innerSeparator, specSeparator, hz]

/-- Cutting the dot-joined escaped segments gives back the escaped segments. -/
theorem cutWith_joinChars (segs : List (List Char)) :
    ∀ (p2 p1 : Option Char), segs ≠ [] → p1 ≠ some '\\' →
      (∀ s ∈ segs, hasBackslashDot s = false) →
      (segs.head? = some [] → p1.isSome = true) →
      cutWith innerSeparator p2 p1 [] (joinChars segs) = segs.map escapeChars := by
  induction segs with
  | nil => intro _ _ h; exact absurd rfl h
  | cons s rest ih =>
    intro p2 p1 _ hp1 hbd hhead
    cases rest with
    | nil =>
      obtain ⟨q2, q1, hq, -, -⟩ :=
        cutWith_escaped_segment s p2 p1 [] [] (hbd s (by simp)) (fun _ => hp1)
      simp only [List.append_nil, List.nil_append] at hq
      simp only [joinChars, List.map_cons, List.map_nil]
      rw [hq]
      rfl
    | cons t rest2 =>
      obtain ⟨q2, q1, hq, hnil, hcons⟩ :=
        cutWith_escaped_segment s p2 p1 [] ('.' :: joinChars (t :: rest2)) (hbd s (by simp))
          (fun _ => hp1)
      have hsep : innerSeparator q2 q1 '.' = true := by
        by_cases hs : s = []
        · obtain ⟨h1, h2⟩ := hnil hs
          rw [h1, h2]
          refine innerSeparator_joining_dot p2 p1 (hhead (by simp [hs])) ?_
          intro h
          exact absurd h hp1
        · obtain ⟨h1, h2⟩ := hcons hs
          refine innerSeparator_joining_dot q2 q1 ?_ h2
          rw [h1]
          cases hx : s.getLast? with
          | none => exact absurd (List.getLast?_eq_none_iff.mp hx) hs
          | some z => rfl
      simp only [joinChars, List.map_cons]
      rw [hq]
      simp only [List.nil_append, cutWith, hsep, if_true]
      rw [ih q1 (some '.') (by simp) (by simp)
        (fun u hu => hbd u (List.mem_cons_of_mem _ hu)) (fun _ => rfl)]
      simp

theorem joinChars_getLast? (segs : List (List Char)) :
    ∀ s, segs.getLast? = some s → s ≠ [] → (joinChars segs).getLast? = s.getLast? := by
  induction segs with
  | nil => intro s h; simp at h
  | cons a rest ih =>
    intro s hs hne
    cases rest with
    | nil =>
      simp only [List.getLast?_singleton, Option.some.injEq] at hs
      subst hs
      simp only [joinChars]
      exact escapeChars_getLast? a
    | cons t rest2 =>
      have hs2 : (t :: rest2).getLast? = some s := by
        rw [List.getLast?_cons_cons] at hs
        exact hs
      have hrec := ih s hs2 hne
      obtain ⟨z, hz⟩ : ∃ z, s.getLast? = some z := by
        cases hx : s.getLast? with
        | none => exact absurd (List.getLast?_eq_none_iff.mp hx) hne
        | some z => exact ⟨z, rfl⟩
      simp only [joinChars]
      have : escapeChars a ++ '.' :: joinChars (t :: rest2) =
          (escapeChars a ++ ['.']) ++ joinChars (t :: rest2) := by simp
      rw [this, List.getLast?_append, hrec, hz]
      rfl

theorem join_escape_data (segs : List String) :
    (strings.Join (segs.map Escape) ".").data = joinChars (segs.map String.data) := by
  induction segs with
  | nil => rfl
  | cons a rest ih =>
    cases rest with
    | nil => rfl
    | cons t rest2 =>
      simp only [List.map_cons, strings.Join, String.data_append, joinChars]
      simp only [List.map_cons] at ih
      rw [ih]
      simp [Escape]

theorem dropTrailingEmpty_id (ps : List (List Char)) (h : ps.getLast? ≠ some []) :
    dropTrailingEmpty ps = ps := by
  unfold dropTrailingEmpty
  rw [if_neg h]

theorem unescape_escape (s : String) : stringutils.Unescape (Escape s) = s := by
  simp [stringutils.Unescape, Escape, unescape_escapeChars]

/-- The round trip of the escaping convention through escapableSplit, for the
lists of segments on which it holds. -/
theorem escapableSplit_join_escape (segs : List String)
    (hfirst : ∀ s, segs.head? = some s → s ≠ "")
    (hlast : ∃ s, segs.getLast? = some s ∧ s ≠ "" ∧ lastCharOneByte s = true)
    (hbd : ∀ s ∈ segs, hasBackslashDot s.data = false) :
    escapableSplit stringutils.Unescape (strings.Join (segs.map Escape) ".") = segs := by
  obtain ⟨l, hl, hlne, hl1⟩ := hlast
  have hsegs : segs ≠ [] := by
    intro h
    rw [h] at hl
    simp at hl
  have hldata : l.data ≠ [] := by
    intro h
    exact hlne (String.ext h)
  have hlastd : (segs.map String.data).getLast? = some l.data := by
    rw [List.getLast?_map, hl]
    rfl
  have hpieces : piecesBetween innerSeparator (strings.Join (segs.map Escape) ".") =
      (segs.map String.data).map escapeChars := by
    unfold piecesBetween
    rw [join_escape_data]
    refine cutWith_joinChars _ none none (by simpa using hsegs) (by simp) ?_ ?_
    · intro s hs
      obtain ⟨u, hu, rfl⟩ := List.mem_map.mp hs
      exact hbd u hu
    · intro h
      cases segs with
      | nil => simp at h
      | cons a rest =>
        simp only [List.map_cons, List.head?_cons, Option.some.injEq] at h
        exact absurd (String.ext h : a = "") (hfirst a rfl)
  have hone : lastCharOneByte (strings.Join (segs.map Escape) ".") = true := by
    unfold lastCharOneByte
    rw [join_escape_data, joinChars_getLast? _ l.data hlastd hldata]
    exact hl1
  rw [escapableSplit_pieces, if_pos hone, hpieces, dropTrailingEmpty_id]
  · rw [List.map_map, List.map_map]
    conv_rhs => rw [← List.map_id segs]
    apply List.map_congr_left
    intro s _
    simp only [Function.comp, id]
    exact unescape_escape s
  · rw [List.getLast?_map, hlastd]
    simp only [Option.map_some', ne_eq, Option.some.injEq]
    exact escapeChars_ne_nil _ hldata

end filter

namespace filter

theorem append_cons_eq_of_not_mem {α : Type} (x : α) :
    ∀ a c b d : List α, x ∉ a → a ++ x :: b = c ++ x :: d →
      a = c ∨ ∃ e, b = e ++ x :: d := by
  intro a
  induction a with
  | nil =>
    intro c b d _ h
    cases c with
    | nil => exact Or.inl rfl
    | cons y ys =>
      simp only [List.nil_append, List.cons_append, List.cons.injEq] at h
      exact Or.inr ⟨ys, h.2⟩
  | cons z zs ih =>
    intro c b d ha h
    cases c with
    | nil =>
      simp only [List.nil_append, List.cons_append, List.cons.injEq] at h
      exact absurd (by simp [h.1]) ha
    | cons y ys =>
      simp only [List.cons_append, List.cons.injEq] at h
      rcases ih ys b d (fun hm => ha (List.mem_cons_of_mem _ hm)) h.2 with h1 | h1
      · exact Or.inl (by rw [h.1, h1])
      · exact Or.inr h1

theorem hasBackslashDot_of_not_mem (s : List Char) (h : '\\' ∉ s) :
    hasBackslashDot s = false := by
  induction s with
  | nil => rfl
  | cons c cs ih =>
    cases cs with
    | nil => rfl
    | cons d ds =>
      have hc : c ≠ '\\' := fun hx => h (by simp [hx])
      simp only [hasBackslashDot, Bool.or_eq_false_iff, Bool.and_eq_false_iff, beq_eq_false_iff_ne]
      exact ⟨Or.inl hc, ih (fun hm => h (List.mem_cons_of_mem _ hm))⟩

theorem escape_id (s : String) (hd : '.' ∉ s.data) (hb : '\\' ∉ s.data) : Escape s = s := by
  simp [Escape, escapeChars_id s.data hd hb]

/-- The rule line made of a plain type name, a dot and a star splits into the
type name and the star. -/
theorem escapableSplit_wildcard_line (T : String) (hne : T ≠ "") (hdot : '.' ∉ T.data)
    (hbs : '\\' ∉ T.data) :
    escapableSplit stringutils.Unescape (T ++ ".*") = [T, "*"] := by
  have h := escapableSplit_join_escape [T, "*"]
    (by
      intro s hs
      simp only [List.head?_cons, Option.some.injEq] at hs
      rw [← hs]
      exact hne)
    ⟨"*", rfl, by decide, by decide⟩
    (by
      intro s hs
      simp only [List.mem_cons, List.mem_singleton, List.not_mem_nil, or_false] at hs
      rcases hs with rfl | rfl
      · exact hasBackslashDot_of_not_mem _ hbs
      · decide)
  have hj : strings.Join ([T, "*"].map Escape) "." = T ++ ".*" := by
    have hstar : Escape "*" = "*" := by decide
    simp only [List.map_cons, List.map_nil, strings.Join, escape_id T hdot hbs, hstar]
    exact wildcard_key T
  rw [hj] at h
  exact h

end filter

/-! ## Claims on the rule set and on the two queries -/

namespace filter

/-- C10: malformed lines are skipped and parsing goes on.  For every list of
lines, the rule set built by readIgnoreFile (resource-exclusion set and
field-exclusion map together) is the rule set built from the same list without
the lines that split into fewer than 2 segments, so the rules of the lines that
follow a malformed line are registered as if the malformed line were absent. -/
theorem readIgnoreFile_skips_malformed (unescape : String → String) (lines : List String) :
    NewDriftIgnore unescape lines =
      NewDriftIgnore unescape
        (lines.filter fun line => decide (2 ≤ (escapableSplit unescape line).length)) :=
  readIgnoreFile_filter unescape lines _

/-- C1, the claim as written fails: with the single rule line `aws\.x.y`, which
splits into the two segments `aws.x` and `y`, the resource of type `aws` and id
`x.y` is ignored although no line splits into two segments whose first one is
`aws`. -/
theorem isResourceIgnored_counterexample :
    IsResourceIgnored (NewDriftIgnore stringutils.Unescape ["aws\\.x.y"])
        { TerraformType := "aws", TerraformId := "x.y" } = true ∧
      ¬ ∃ line ∈ ["aws\\.x.y"], ∃ t i,
          escapableSplit stringutils.Unescape line = [t, i] ∧
            t = "aws" ∧ (i = "x.y" ∨ i = "*") := by
  refine ⟨by decide, ?_⟩
  rintro ⟨line, hl, t, i, hs, ht, _⟩
  rw [List.mem_singleton] at hl
  subst hl
  have hsplit : escapableSplit stringutils.Unescape "aws\\.x.y" = ["aws.x", "y"] := by decide
  rw [hsplit] at hs
  simp only [List.cons.injEq, and_true] at hs
  rw [ht] at hs
  exact absurd hs.1 (by decide)

/-- C1 (amended): for the rule set built by readIgnoreFile from any list of lines
and every resource (type, id), IsResourceIgnored is true if and only if some line
splits into exactly two segments (t, i) whose key `t.i` is the text `type.id` or
the text `type.*`; lines with another number of segments never make a resource
ignored.  This is the case whenever t is the type and i is the id or `*`, and,
when neither the type nor the first segment of any two-segment line contains a
dot, only then. -/
theorem isResourceIgnored_iff_joined_key (unescape : String → String) (lines : List String)
    (res : Resource) :
    (IsResourceIgnored (NewDriftIgnore unescape lines) res = true ↔
        ∃ line ∈ lines, ∃ t i, escapableSplit unescape line = [t, i] ∧
          (t ++ "." ++ i = res.TerraformType ++ "." ++ res.TerraformId ∨
            t ++ "." ++ i = res.TerraformType ++ ".*")) ∧
      ((∃ line ∈ lines, ∃ t i, escapableSplit unescape line = [t, i] ∧
            t = res.TerraformType ∧ (i = res.TerraformId ∨ i = "*")) →
          IsResourceIgnored (NewDriftIgnore unescape lines) res = true) ∧
      ('.' ∉ res.TerraformType.data →
        (∀ line ∈ lines, ∀ t i, escapableSplit unescape line = [t, i] → '.' ∉ t.data) →
        (IsResourceIgnored (NewDriftIgnore unescape lines) res = true ↔
          ∃ line ∈ lines, ∃ t i, escapableSplit unescape line = [t, i] ∧
            t = res.TerraformType ∧ (i = res.TerraformId ∨ i = "*"))) := by
  have hkey := isResourceIgnored_iff_key unescape lines res
  have hback : (∃ line ∈ lines, ∃ t i, escapableSplit unescape line = [t, i] ∧
        t = res.TerraformType ∧ (i = res.TerraformId ∨ i = "*")) →
      IsResourceIgnored (NewDriftIgnore unescape lines) res = true := by
    rintro ⟨line, hl, t, i, hs, ht, hi | hi⟩
    · exact hkey.mpr ⟨line, hl, t, i, hs, Or.inl (by rw [ht, hi])⟩
    · exact hkey.mpr ⟨line, hl, t, i, hs, Or.inr (by rw [ht, hi, wildcard_key])⟩
  refine ⟨hkey, hback, ?_⟩
  intro hty hlines
  refine ⟨?_, hback⟩
  intro h
  obtain ⟨line, hl, t, i, hs, hk | hk⟩ := hkey.mp h
  · obtain ⟨h1, h2⟩ := key_cancel t i _ _ (hlines line hl t i hs) hty hk
    exact ⟨line, hl, t, i, hs, h1, Or.inl h2⟩
  · have hk2 : t ++ "." ++ i = res.TerraformType ++ "." ++ "*" := by
      rw [hk, wildcard_key]
    obtain ⟨h1, h2⟩ := key_cancel t i _ _ (hlines line hl t i hs) hty hk2
    exact ⟨line, hl, t, i, hs, h1, Or.inr h2⟩

/-- C5: precedence of the exact-id rules, for every rule set, resource and diff
path.  When rules are registered under the key `type.id`, IsFieldIgnored is
`some exact-id rule matches the path` and the rules under `type.*` are not
consulted, so a path that only a wildcard-id rule matches is not ignored; the
rules under `type.*` decide only when nothing is registered under `type.id`; when
neither key has rules the result is false. -/
theorem isFieldIgnored_precedence (unescape toLower : String → String) (r : DriftIgnore)
    (res : Resource) (path : List String) :
    (∀ exact, r.driftExclusionList.lookup (res.TerraformType ++ "." ++ res.TerraformId) =
          some exact →
        IsFieldIgnored unescape toLower r res path = isExcluded unescape toLower exact path ∧
          (isExcluded unescape toLower exact path = false →
            ∀ wild, r.driftExclusionList.lookup (res.TerraformType ++ ".*") = some wild →
              isExcluded unescape toLower wild path = true →
                IsFieldIgnored unescape toLower r res path = false)) ∧
      (r.driftExclusionList.lookup (res.TerraformType ++ "." ++ res.TerraformId) = none →
        ∀ wild, r.driftExclusionList.lookup (res.TerraformType ++ ".*") = some wild →
          IsFieldIgnored unescape toLower r res path = isExcluded unescape toLower wild path) ∧
      (r.driftExclusionList.lookup (res.TerraformType ++ "." ++ res.TerraformId) = none →
        r.driftExclusionList.lookup (res.TerraformType ++ ".*") = none →
          IsFieldIgnored unescape toLower r res path = false) := by
  refine ⟨?_, ?_, ?_⟩
  · intro exact h
    have he : IsFieldIgnored unescape toLower r res path =
        isExcluded unescape toLower exact path := by
      rw [isFieldIgnored_cases, h]
    exact ⟨he, fun hf _ _ _ => by rw [he, hf]⟩
  · intro h wild hw
    rw [isFieldIgnored_cases, h, hw]
  · intro h hw
    rw [isFieldIgnored_cases, h, hw]

end filter

namespace filter

/-- C1 (amended), on the lines `aws_s3_bucket.foo\.bar` and `oops` and the
resource (aws_s3_bucket, foo.bar): no type and no first segment contains a dot,
and the resource is ignored exactly when a two-segment line names its type and
its id or `*`, which the first line does. -/
theorem isResourceIgnored_iff_joined_key_witness :
    ('.' ∉ "aws_s3_bucket".data ∧
        ∀ line ∈ ["aws_s3_bucket.foo\\.bar", "oops"], ∀ t i,
          escapableSplit stringutils.Unescape line = [t, i] → '.' ∉ t.data) ∧
      (IsResourceIgnored
          (NewDriftIgnore stringutils.Unescape ["aws_s3_bucket.foo\\.bar", "oops"])
          { TerraformType := "aws_s3_bucket", TerraformId := "foo.bar" } = true ↔
        ∃ line ∈ ["aws_s3_bucket.foo\\.bar", "oops"], ∃ t i,
          escapableSplit stringutils.Unescape line = [t, i] ∧
            t = "aws_s3_bucket" ∧ (i = "foo.bar" ∨ i = "*")) := by
  have h1 : '.' ∉ "aws_s3_bucket".data := by decide
  have h2 : ∀ line ∈ ["aws_s3_bucket.foo\\.bar", "oops"], ∀ t i,
      escapableSplit stringutils.Unescape line = [t, i] → '.' ∉ t.data := by
    intro line hl t i hs
    simp only [List.mem_cons, List.mem_singleton, List.not_mem_nil, or_false] at hl
    rcases hl with rfl | rfl
    · have hsplit : escapableSplit stringutils.Unescape "aws_s3_bucket.foo\\.bar" =
          ["aws_s3_bucket", "foo.bar"] := by decide
      rw [hsplit] at hs
      simp only [List.cons.injEq, and_true] at hs
      rw [← hs.1]
      exact h1
    · have hsplit : escapableSplit stringutils.Unescape "oops" = ["oops"] := by decide
      rw [hsplit] at hs
      simp at hs
  exact ⟨⟨h1, h2⟩,
    (isResourceIgnored_iff_joined_key stringutils.Unescape
      ["aws_s3_bucket.foo\\.bar", "oops"]
      { TerraformType := "aws_s3_bucket", TerraformId := "foo.bar" }).2.2 h1 h2⟩

/-- C5, on the lines `aws_instance.i-1.tags.*` and `aws_instance.*.ami` and the
resource (aws_instance, i-1): the exact-id rule `tags.*` does not match the path
`ami`, the wildcard-id rule `ami` matches it, and the path is not ignored. -/
theorem isFieldIgnored_precedence_witness :
    (NewDriftIgnore stringutils.Unescape
          ["aws_instance.i-1.tags.*", "aws_instance.*.ami"]).driftExclusionList.lookup
        "aws_instance.i-1" = some ["tags.*"] ∧
      (NewDriftIgnore stringutils.Unescape
          ["aws_instance.i-1.tags.*", "aws_instance.*.ami"]).driftExclusionList.lookup
        "aws_instance.*" = some ["ami"] ∧
      isExcluded stringutils.Unescape strings.ToLower ["ami"] ["ami"] = true ∧
      IsFieldIgnored stringutils.Unescape strings.ToLower
        (NewDriftIgnore stringutils.Unescape
          ["aws_instance.i-1.tags.*", "aws_instance.*.ami"])
        { TerraformType := "aws_instance", TerraformId := "i-1" } ["ami"] = false :=
  ⟨by decide, by decide, by decide,
    ((isFieldIgnored_precedence stringutils.Unescape strings.ToLower
        (NewDriftIgnore stringutils.Unescape
          ["aws_instance.i-1.tags.*", "aws_instance.*.ami"])
        { TerraformType := "aws_instance", TerraformId := "i-1" } ["ami"]).1
      ["tags.*"] (by decide)).2 (by decide) ["ami"] (by decide) (by decide)⟩

end filter

namespace filter

/-- C2: for every type name T that is not empty and contains neither a dot nor a
backslash, with the rule set built from the single rule line `T.*`,
IsResourceIgnored is true for every resource of type T whatever its id, and false
for every resource of another type whatever its id. -/
theorem isResourceIgnored_wildcard_rule (T : String) (hne : T ≠ "") (hdot : '.' ∉ T.data)
    (hbs : '\\' ∉ T.data) :
    (∀ id, IsResourceIgnored (NewDriftIgnore stringutils.Unescape [T ++ ".*"])
        { TerraformType := T, TerraformId := id } = true) ∧
      (∀ ty id, ty ≠ T →
        IsResourceIgnored (NewDriftIgnore stringutils.Unescape [T ++ ".*"])
          { TerraformType := ty, TerraformId := id } = false) := by
  have hsplit := escapableSplit_wildcard_line T hne hdot hbs
  constructor
  · intro id
    rw [isResourceIgnored_iff_key]
    exact ⟨T ++ ".*", by simp, T, "*", hsplit, Or.inr (wildcard_key T)⟩
  · intro ty id hty
    rw [← Bool.not_eq_true, isResourceIgnored_iff_key]
    rintro ⟨line, hl, t, i, hs, hk⟩
    rw [List.mem_singleton] at hl
    subst hl
    rw [hsplit] at hs
    simp only [List.cons.injEq, and_true] at hs
    obtain ⟨rfl, rfl⟩ := hs
    rcases hk with hk | hk
    · have hd := congrArg String.data hk
      simp only [String.data_append] at hd
      have hd2 : T.data ++ '.' :: ['*'] = ty.data ++ '.' :: id.data := by
        simpa using hd
      rcases append_cons_eq_of_not_mem '.' _ _ _ _ hdot hd2 with h1 | ⟨e, he⟩
      · exact hty (String.ext h1.symm)
      · cases e with
        | nil => simp at he
        | cons y ys => simp at he
    · rw [wildcard_key] at hk
      have hd := congrArg String.data hk
      simp only [String.data_append] at hd
      exact hty (String.ext (List.append_cancel_right hd).symm)

/-- C2, on the rule line of the specification: `aws_iam_user_policy.*`. -/
theorem isResourceIgnored_wildcard_rule_witness :
    ("aws_iam_user_policy" ≠ "" ∧ '.' ∉ "aws_iam_user_policy".data ∧
        '\\' ∉ "aws_iam_user_policy".data) ∧
      (∀ id, IsResourceIgnored
          (NewDriftIgnore stringutils.Unescape ["aws_iam_user_policy" ++ ".*"])
          { TerraformType := "aws_iam_user_policy", TerraformId := id } = true) ∧
      (∀ ty id, ty ≠ "aws_iam_user_policy" →
        IsResourceIgnored (NewDriftIgnore stringutils.Unescape ["aws_iam_user_policy" ++ ".*"])
          { TerraformType := ty, TerraformId := id } = false) :=
  ⟨⟨by decide, by decide, by decide⟩,
    isResourceIgnored_wildcard_rule "aws_iam_user_policy" (by decide) (by decide) (by decide)⟩

/-- C3, evaluation of the code at the failing input: the rule line
`aws_instance.i-1.tags.kubernetes\.io/cluster` splits into a type, an id and the
two pattern segments `tags` and `kubernetes.io/cluster`, which match the diff path
made of `tags` and `kubernetes.io/cluster` segment by segment, yet IsFieldIgnored
is false on that path: the unescaped segments are joined by dots when the line is
read and the joined text is split a second time when a path is tested, so the
escaped dot is lost.  The same escape is honoured in the id of the same kind of
line (`aws_s3_bucket.foo\.bar.tags` ignores `tags` on the bucket `foo.bar`), and
the second split also unescapes a second time: the line `t.i.a\\.b`, whose
pattern segments are `a\` and `b`, ignores the one-segment path `a.b` and does
not ignore the path made of `a\` and `b`. -/
theorem isFieldIgnored_loses_escaped_dot :
    (escapableSplit stringutils.Unescape "aws_instance.i-1.tags.kubernetes\\.io/cluster" =
        ["aws_instance", "i-1", "tags", "kubernetes.io/cluster"] ∧
      specMatches strings.ToLower ["tags", "kubernetes.io/cluster"]
        ["tags", "kubernetes.io/cluster"] ∧
      IsFieldIgnored stringutils.Unescape strings.ToLower
        (NewDriftIgnore stringutils.Unescape ["aws_instance.i-1.tags.kubernetes\\.io/cluster"])
        { TerraformType := "aws_instance", TerraformId := "i-1" }
        ["tags", "kubernetes.io/cluster"] = false) ∧
      (escapableSplit stringutils.Unescape "aws_s3_bucket.foo\\.bar.tags" =
          ["aws_s3_bucket", "foo.bar", "tags"] ∧
        IsFieldIgnored stringutils.Unescape strings.ToLower
          (NewDriftIgnore stringutils.Unescape ["aws_s3_bucket.foo\\.bar.tags"])
          { TerraformType := "aws_s3_bucket", TerraformId := "foo.bar" } ["tags"] = true) ∧
      (escapableSplit stringutils.Unescape "t.i.a\\\\.b" = ["t", "i", "a\\", "b"] ∧
        IsFieldIgnored stringutils.Unescape strings.ToLower
          (NewDriftIgnore stringutils.Unescape ["t.i.a\\\\.b"])
          { TerraformType := "t", TerraformId := "i" } ["a.b"] = true ∧
        IsFieldIgnored stringutils.Unescape strings.ToLower
          (NewDriftIgnore stringutils.Unescape ["t.i.a\\\\.b"])
          { TerraformType := "t", TerraformId := "i" } ["a\\", "b"] = false) := by
  refine ⟨⟨by decide, by decide, by decide⟩, ⟨by decide, by decide⟩,
    ⟨by decide, by decide, by decide⟩⟩

/-- What IsFieldIgnored computes on a rule set built by readIgnoreFile, for any
unescaping and lower-casing functions: a stored rule passes the check of
isExcluded on a diff path d if and only if the segments obtained by splitting the
stored text match d (not longer than d, each segment the lower-cased segment of d
at the same place or `*`), and IsFieldIgnored is true if and only if the stored
text of at least one applicable line, split in this way (`rulePattern`), matches
d. -/
theorem isFieldIgnored_iff_rule_matches (unescape toLower : String → String) :
    (∀ rule d, ruleCheck unescape toLower rule d = true ↔
        specMatches toLower (escapableSplit unescape rule) d) ∧
      (∀ lines res d,
        IsFieldIgnored unescape toLower (NewDriftIgnore unescape lines) res d = true ↔
          ∃ line ∈ applicableLines unescape lines res,
            specMatches toLower (rulePattern unescape line) d) := by
  refine ⟨fun rule d => ruleCheck_iff unescape toLower rule d, ?_⟩
  intro lines res d
  rw [isFieldIgnored_applicable, isExcluded_iff]
  simp only [List.mem_map, exists_exists_and_eq_and, rulePattern]

/-- C4, the claim as written fails: with the rule line `aws_instance.i-1.tags.*`
the diff path made of the single segment `tags` is not ignored. -/
theorem isFieldIgnored_tags_counterexample :
    IsFieldIgnored stringutils.Unescape strings.ToLower
      (NewDriftIgnore stringutils.Unescape ["aws_instance.i-1.tags.*"])
      { TerraformType := "aws_instance", TerraformId := "i-1" } ["tags"] = false := by
  decide

/-- C4 (amended): with the rule set built from the single rule line
`aws_instance.i-1.tags.*` and the resource (aws_instance, i-1), IsFieldIgnored
is true for the diff path `tags`, `Name`, false for the diff path `tags` (the
pattern has two segments, one more than the path), and false for the diff path
`metadata`, `tags`. -/
theorem isFieldIgnored_tags_rule :
    IsFieldIgnored stringutils.Unescape strings.ToLower
        (NewDriftIgnore stringutils.Unescape ["aws_instance.i-1.tags.*"])
        { TerraformType := "aws_instance", TerraformId := "i-1" } ["tags", "Name"] = true ∧
      IsFieldIgnored stringutils.Unescape strings.ToLower
        (NewDriftIgnore stringutils.Unescape ["aws_instance.i-1.tags.*"])
        { TerraformType := "aws_instance", TerraformId := "i-1" } ["tags"] = false ∧
      IsFieldIgnored stringutils.Unescape strings.ToLower
        (NewDriftIgnore stringutils.Unescape ["aws_instance.i-1.tags.*"])
        { TerraformType := "aws_instance", TerraformId := "i-1" } ["metadata", "tags"] =
          false := by
  refine ⟨?_, ?_, ?_⟩ <;> decide

/-- C6, the claim as written fails: the dot that starts the line `.a` has no
backslash before it and is not a cut, and the line `a.` gives no empty piece
after its last dot. -/
theorem escapableSplit_counterexample :
    (escapableSplit stringutils.Unescape ".a" = [".a"] ∧
        specSplit stringutils.Unescape ".a" = ["", "a"]) ∧
      (escapableSplit stringutils.Unescape "a." = ["a"] ∧
        specSplit stringutils.Unescape "a." = ["a", ""]) := by
  decide

/-- C6 (amended): for every line whose last character, if any, is encoded on one
byte, escapableSplit cuts the line at exactly those `.` characters that are not
the first character of the line and are a field separator under the escaping rule
(a `.` is a separator unless its immediately preceding character is a backslash
that is not itself immediately preceded by a backslash).  The result is the
ordered list of the pieces between consecutive separators, each passed through
Unescape, without the last piece when that piece is empty (a line that ends with
a separator, or the empty line). -/
theorem escapableSplit_cuts_at_separators (unescape : String → String) (line : String)
    (hlast : lastCharOneByte line = true) :
    escapableSplit unescape line =
      (dropTrailingEmpty (piecesBetween innerSeparator line)).map
        fun p => unescape (String.mk p) := by
  rw [escapableSplit_pieces, if_pos hlast]

/-- C6 (amended), on the line `a\.b.c\\.d.`: three pieces, cut at the second and
third dots, the fourth dot ending the line. -/
theorem escapableSplit_cuts_at_separators_witness :
    lastCharOneByte "a\\.b.c\\\\.d." = true ∧
      escapableSplit stringutils.Unescape "a\\.b.c\\\\.d." =
        (dropTrailingEmpty (piecesBetween innerSeparator "a\\.b.c\\\\.d.")).map
          fun p => stringutils.Unescape (String.mk p) :=
  ⟨by decide, escapableSplit_cuts_at_separators stringutils.Unescape "a\\.b.c\\\\.d." (by decide)⟩

/-- C7, the claim as written fails: the single segment `x\.y` (a literal
backslash followed by a literal dot) is escaped, joined and split into two
segments. -/
theorem escape_round_trip_counterexample :
    escapableSplit stringutils.Unescape (strings.Join (["x\\.y"].map Escape) ".") ≠
      ["x\\.y"] := by
  decide

/-- C7 (amended): escaping round trip.  For every non-empty list of segments
whose first and last segments are not empty, whose last segment ends with a
character encoded on one byte, and in which no segment has a literal backslash
immediately followed by a literal dot: escaping each segment with the driftignore
convention (a literal `.` written backslash-dot, a literal backslash written
twice), joining the escaped segments with `.` and applying escapableSplit returns
exactly the original list of segments. -/
theorem escape_round_trip (segs : List String) (hfirst : segs.head? ≠ some "")
    (hlast : ∃ s, segs.getLast? = some s ∧ s ≠ "" ∧ lastCharOneByte s = true)
    (hbd : ∀ s ∈ segs, hasBackslashDot s.data = false) :
    escapableSplit stringutils.Unescape (strings.Join (segs.map Escape) ".") = segs :=
  escapableSplit_join_escape segs (fun s hs h => hfirst (by rw [hs, h])) hlast hbd

/-- C7 (amended), on the line of the specification: the segments `aws_s3_bucket`
and `foo.bar` are written `aws_s3_bucket.foo\.bar`, which splits back into
them. -/
theorem escape_round_trip_witness :
    strings.Join (["aws_s3_bucket", "foo.bar"].map Escape) "." = "aws_s3_bucket.foo\\.bar" ∧
      escapableSplit stringutils.Unescape
          (strings.Join (["aws_s3_bucket", "foo.bar"].map Escape) ".") =
        ["aws_s3_bucket", "foo.bar"] :=
  ⟨by decide,
    escape_round_trip ["aws_s3_bucket", "foo.bar"] (by decide)
      ⟨"foo.bar", rfl, by decide, by decide⟩ (by decide)⟩

end filter

/-! ## The instance-group-manager middleware -/

namespace middlewares

theorem collectInstanceGroups_eq_filter (remoteResources : List Resource) :
    collectInstanceGroups remoteResources =
      remoteResources.filter fun r =>
        r.ResourceType == google.GoogleComputeInstanceGroupResourceType := by
  unfold collectInstanceGroups
  have h : ∀ (rs acc : List Resource),
      rs.foldl
          (fun instanceGroups remoteResource =>
            if remoteResource.ResourceType != google.GoogleComputeInstanceGroupResourceType then
              instanceGroups
            else instanceGroups ++ [remoteResource])
          acc =
        acc ++ rs.filter fun r =>
          r.ResourceType == google.GoogleComputeInstanceGroupResourceType := by
    intro rs
    induction rs with
    | nil => intro acc; simp
    | cons r rest ih =>
      intro acc
      rw [List.foldl_cons, ih]
      by_cases hr : r.ResourceType = google.GoogleComputeInstanceGroupResourceType
      · simp [hr]
      · simp [hr]
  simpa using h remoteResources []

theorem importGroups_eq (name : Option String) (instanceGroups : List Resource) :
    ∀ acc : List Resource,
      importGroups name instanceGroups acc =
        if safeName instanceGroups name = true then
          some (acc ++
            match name with
            | some nm => matchingGroups instanceGroups nm
            | none => [])
        else none := by
  induction instanceGroups with
  | nil =>
    intro acc
    cases name <;> simp [importGroups, safeName, matchingGroups]
  | cons group rest ih =>
    intro acc
    cases hg : group.GetString "name" with
    | none =>
      rw [importGroups]
      simp only [hg]
      rw [ih]
      cases name with
      | none => simp [safeName, hg]
      | some nm => simp [safeName, matchingGroups, hg]
    | some n =>
      cases name with
      | none =>
        rw [importGroups]
        simp [hg, safeName]
      | some nm =>
        rw [importGroups]
        simp only [hg]
        by_cases hn : n = nm
        · rw [if_pos hn, ih]
          simp [safeName, matchingGroups, hg, hn]
        · rw [if_neg hn, ih]
          simp [safeName, matchingGroups, hg, hn]

theorem expandState_eq (instanceGroups : List Resource) (state : List Resource) :
    ∀ acc : List Resource,
      expandState instanceGroups state acc =
        if state.all (safeResource instanceGroups) = true then
          some (acc ++ state.flatMap (expansion instanceGroups))
        else none := by
  induction state with
  | nil => intro acc; simp [expandState]
  | cons r rest ih =>
    intro acc
    rw [expandState]
    by_cases hr : r.ResourceType = google.GoogleComputeInstanceGroupManagerResourceType
    · simp only [hr, bne_self_eq_false, Bool.false_eq_true, if_false]
      rw [importGroups_eq]
      by_cases hs : safeName instanceGroups (r.GetString "name") = true
      · simp only [hs, if_true]
        rw [ih]
        have hsr : safeResource instanceGroups r = true := by
          simp [safeResource, hs]
        simp only [List.all_cons, hsr, Bool.true_and, List.flatMap_cons]
        cases hname : r.GetString "name" <;> simp [expansion, hr, hname]
      · have hsr : safeResource instanceGroups r = false := by
          simp [safeResource, hr, hs]
        simp [hs, hsr]
    · have hsr : safeResource instanceGroups r = true := by
        simp [safeResource, hr]
      simp only [bne_iff_ne, ne_eq, hr, not_false_eq_true, if_true]
      rw [ih]
      simp [hsr, expansion, hr]

theorem execute_eq (remoteResources resourcesFromState : List Resource) :
    Execute remoteResources resourcesFromState =
      if resourcesFromState.all (safeResource (collectInstanceGroups remoteResources)) = true then
        some
          { remoteResources := remoteResources
            resourcesFromState :=
              resourcesFromState.flatMap (expansion (collectInstanceGroups remoteResources))
            err := none }
      else none := by
  unfold Execute
  rw [expandState_eq]
  by_cases h : resourcesFromState.all (safeResource (collectInstanceGroups remoteResources)) = true
  · rw [if_pos h, if_pos h]
    simp
  · rw [if_neg h, if_neg h]

end middlewares

namespace middlewares

theorem flatMap_fixed {α : Type} (f : α → List α) (ms : List α) (h : ∀ x ∈ ms, f x = [x]) :
    ms.flatMap f = ms := by
  induction ms with
  | nil => rfl
  | cons x xs ih =>
    rw [List.flatMap_cons, h x (by simp), ih (fun y hy => h y (List.mem_cons_of_mem _ hy))]
    rfl

theorem flatMap_twice_length {α : Type} (f : α → List α)
    (hf : ∀ r, ∃ ms, f r = r :: ms ∧ ∀ x ∈ ms, f x = [x]) (l : List α) :
    ((l.flatMap f).flatMap f).length + l.length = 2 * (l.flatMap f).length := by
  induction l with
  | nil => rfl
  | cons r rest ih =>
    obtain ⟨ms, hr, hms⟩ := hf r
    have h1 : (f r).flatMap f = (r :: ms) ++ ms := by
      rw [hr, List.flatMap_cons, hr, flatMap_fixed f ms hms]
    rw [List.flatMap_cons, List.flatMap_append, h1, hr]
    simp only [List.length_append, List.length_cons]
    omega

theorem length_le_flatMap {α : Type} (f : α → List α) (hf : ∀ r, ∃ ms, f r = r :: ms)
    (l : List α) : l.length ≤ (l.flatMap f).length := by
  induction l with
  | nil => simp
  | cons r rest ih =>
    obtain ⟨ms, hr⟩ := hf r
    rw [List.flatMap_cons, hr]
    simp only [List.length_append, List.length_cons]
    omega

theorem flatMap_eq_self_of_length {α : Type} (f : α → List α)
    (hf : ∀ r, ∃ ms, f r = r :: ms) (l : List α)
    (h : (l.flatMap f).length = l.length) : l.flatMap f = l := by
  induction l with
  | nil => rfl
  | cons r rest ih =>
    obtain ⟨ms, hr⟩ := hf r
    have hle := length_le_flatMap f hf rest
    rw [List.flatMap_cons, hr] at h
    simp only [List.length_append, List.length_cons] at h
    have hms : ms = [] := List.length_eq_zero.mp (by omega)
    rw [List.flatMap_cons, hr, hms, ih (by omega)]
    rfl

theorem resourceType_of_mem_collect (remoteResources : List Resource) (g : Resource)
    (hg : g ∈ collectInstanceGroups remoteResources) :
    g.ResourceType = google.GoogleComputeInstanceGroupResourceType := by
  rw [collectInstanceGroups_eq_filter, List.mem_filter] at hg
  simpa using hg.2

theorem not_manager_of_group (g : Resource)
    (hg : g.ResourceType = google.GoogleComputeInstanceGroupResourceType) :
    g.ResourceType ≠ google.GoogleComputeInstanceGroupManagerResourceType := by
  rw [hg]
  decide

theorem expansion_shape (remoteResources : List Resource) (r : Resource) :
    ∃ ms, expansion (collectInstanceGroups remoteResources) r = r :: ms ∧
      (∀ x ∈ ms, x ∈ collectInstanceGroups remoteResources) ∧
      ∀ x ∈ ms, expansion (collectInstanceGroups remoteResources) x = [x] := by
  have hgroup : ∀ x ∈ collectInstanceGroups remoteResources,
      expansion (collectInstanceGroups remoteResources) x = [x] := by
    intro x hx
    have := not_manager_of_group x (resourceType_of_mem_collect remoteResources x hx)
    simp [expansion, this]
  unfold expansion
  by_cases hr : r.ResourceType = google.GoogleComputeInstanceGroupManagerResourceType
  · cases hname : r.GetString "name" with
    | none => exact ⟨[], by simp [hr], by simp, by simp⟩
    | some nm =>
      have hsub : ∀ x ∈ matchingGroups (collectInstanceGroups remoteResources) nm,
          x ∈ collectInstanceGroups remoteResources := by
        intro x hx
        exact (List.mem_filter.mp hx).1
      exact ⟨_, by simp [hr], hsub, fun x hx => hgroup x (hsub x hx)⟩
  · exact ⟨[], by simp [hr], by simp, by simp⟩

theorem safe_after_execute (remoteResources state : List Resource)
    (h : state.all (safeResource (collectInstanceGroups remoteResources)) = true) :
    (state.flatMap (expansion (collectInstanceGroups remoteResources))).all
      (safeResource (collectInstanceGroups remoteResources)) = true := by
  rw [List.all_eq_true] at h ⊢
  intro x hx
  obtain ⟨r, hr, hxr⟩ := List.mem_flatMap.mp hx
  obtain ⟨ms, hshape, hsub, -⟩ := expansion_shape remoteResources r
  rw [hshape, List.mem_cons] at hxr
  rcases hxr with rfl | hxm
  · exact h x hr
  · have := not_manager_of_group x (resourceType_of_mem_collect remoteResources x (hsub x hxm))
    simp [safeResource, this]

end middlewares

namespace middlewares

/-- C8, the claim as written fails: with the remote instance group `groupA` and
the state manager `managerA`, both named `a`, the first run of Execute gives the
state set `managerA`, `groupA` and a second run on it gives `managerA`, `groupA`,
`groupA`: the group injected by the first run is injected a second time. -/
theorem execute_twice_counterexample :
    Execute [groupA] [managerA] =
        some { remoteResources := [groupA]
               resourcesFromState := [managerA, groupA]
               err := none } ∧
      Execute [groupA] [managerA, groupA] =
        some { remoteResources := [groupA]
               resourcesFromState := [managerA, groupA, groupA]
               err := none } := by
  decide

theorem expansion_eq_cons_injected (remoteResources : List Resource) (r : Resource) :
    expansion (collectInstanceGroups remoteResources) r =
      r :: injectedGroups remoteResources r := by
  unfold expansion injectedGroups
  by_cases hm : r.ResourceType = google.GoogleComputeInstanceGroupManagerResourceType
  · cases hn : r.GetString "name" <;> simp [hm]
  · simp [hm]

theorem expansion_of_injected (remoteResources : List Resource) (r x : Resource)
    (hx : x ∈ injectedGroups remoteResources r) :
    expansion (collectInstanceGroups remoteResources) x = [x] := by
  obtain ⟨ms, hshape, -, hfix⟩ := expansion_shape remoteResources r
  rw [expansion_eq_cons_injected, List.cons.injEq] at hshape
  rw [hshape.2] at hx
  exact hfix x hx

theorem flatMap_expansion_once (remoteResources : List Resource) (state : List Resource) :
    state.flatMap (expansion (collectInstanceGroups remoteResources)) =
      state.flatMap fun r => r :: injectedGroups remoteResources r := by
  induction state with
  | nil => rfl
  | cons r rest ih =>
    rw [List.flatMap_cons, List.flatMap_cons, ih, expansion_eq_cons_injected]

theorem flatMap_expansion_twice (remoteResources : List Resource) (state : List Resource) :
    (state.flatMap (expansion (collectInstanceGroups remoteResources))).flatMap
        (expansion (collectInstanceGroups remoteResources)) =
      state.flatMap fun r =>
        r :: (injectedGroups remoteResources r ++ injectedGroups remoteResources r) := by
  induction state with
  | nil => rfl
  | cons r rest ih =>
    rw [List.flatMap_cons, List.flatMap_append, ih, List.flatMap_cons (f := fun r =>
      r :: (injectedGroups remoteResources r ++ injectedGroups remoteResources r))]
    congr 1
    rw [expansion_eq_cons_injected, List.flatMap_cons, expansion_eq_cons_injected,
      flatMap_fixed _ _ (fun x hx => expansion_of_injected remoteResources r x hx)]
    simp

/-- C8 (amended): for every remote set and state set on which a first run of
Execute completes, the first run produces each state resource followed by the
remote instance groups injected for it (`injectedGroups`: for a named manager,
the remote groups of that name); a second run on the same remote set and on the
state set of the first run completes too and produces each state resource
followed by the same injected groups twice, so every instance group injected by
the first run is injected a second time, right after the first copies.  The
second run produces the same state set as the first run if and only if the first
run injected nothing (its state set is the input state set), and it adds as many
members as the first run did. -/
theorem execute_twice (remoteResources resourcesFromState : List Resource) (first : Outcome)
    (h : Execute remoteResources resourcesFromState = some first) :
    first.resourcesFromState =
        (resourcesFromState.flatMap fun r => r :: injectedGroups remoteResources r) ∧
      ∃ second, Execute remoteResources first.resourcesFromState = some second ∧
        second.resourcesFromState =
          (resourcesFromState.flatMap fun r =>
            r :: (injectedGroups remoteResources r ++ injectedGroups remoteResources r)) ∧
        (second.resourcesFromState = first.resourcesFromState ↔
          first.resourcesFromState = resourcesFromState) ∧
        second.resourcesFromState.length + resourcesFromState.length =
          2 * first.resourcesFromState.length := by
  rw [execute_eq] at h
  by_cases hs : resourcesFromState.all
      (safeResource (collectInstanceGroups remoteResources)) = true
  · rw [if_pos hs] at h
    simp only [Option.some.injEq] at h
    subst h
    have hshape : ∀ r, ∃ ms, expansion (collectInstanceGroups remoteResources) r = r :: ms ∧
        ∀ x ∈ ms, expansion (collectInstanceGroups remoteResources) x = [x] := by
      intro r
      obtain ⟨ms, h1, -, h3⟩ := expansion_shape remoteResources r
      exact ⟨ms, h1, h3⟩
    have hshape2 : ∀ r, ∃ ms, expansion (collectInstanceGroups remoteResources) r = r :: ms := by
      intro r
      obtain ⟨ms, h1, -⟩ := hshape r
      exact ⟨ms, h1⟩
    have hlen := flatMap_twice_length _ hshape resourcesFromState
    refine ⟨flatMap_expansion_once remoteResources resourcesFromState,
      { remoteResources := remoteResources
        resourcesFromState :=
          (resourcesFromState.flatMap
            (expansion (collectInstanceGroups remoteResources))).flatMap
            (expansion (collectInstanceGroups remoteResources))
        err := none }, ?_, ?_, ?_, ?_⟩
    · rw [execute_eq, if_pos (safe_after_execute remoteResources resourcesFromState hs)]
    · exact flatMap_expansion_twice remoteResources resourcesFromState
    · simp only
      constructor
      · intro h2
        apply flatMap_eq_self_of_length _ hshape2
        rw [h2] at hlen
        omega
      · intro h2
        rw [h2, h2]
    · exact hlen
  · rw [if_neg hs] at h
    cases h

/-- C8 (amended), on the remote set `bucketB`, `groupA` and the state set
`managerA`, `bucketB`: the first run gives `managerA`, `groupA`, `bucketB`, and
the second run completes and gives `managerA`, `groupA`, `groupA`, `bucketB`. -/
theorem execute_twice_witness :
    Execute [bucketB, groupA] [managerA, bucketB] =
        some { remoteResources := [bucketB, groupA]
               resourcesFromState := [managerA, groupA, bucketB]
               err := none } ∧
      ([managerA, bucketB].flatMap fun r =>
          r :: (injectedGroups [bucketB, groupA] r ++ injectedGroups [bucketB, groupA] r)) =
        [managerA, groupA, groupA, bucketB] ∧
      ([managerA, groupA, bucketB] =
          ([managerA, bucketB].flatMap fun r => r :: injectedGroups [bucketB, groupA] r) ∧
        ∃ second, Execute [bucketB, groupA] [managerA, groupA, bucketB] = some second ∧
          second.resourcesFromState =
            ([managerA, bucketB].flatMap fun r =>
              r :: (injectedGroups [bucketB, groupA] r ++
                injectedGroups [bucketB, groupA] r)) ∧
          (second.resourcesFromState = [managerA, groupA, bucketB] ↔
            [managerA, groupA, bucketB] = [managerA, bucketB]) ∧
          second.resourcesFromState.length + 2 = 2 * 3) :=
  ⟨by decide, by decide,
    execute_twice [bucketB, groupA] [managerA, bucketB]
      { remoteResources := [bucketB, groupA]
        resourcesFromState := [managerA, groupA, bucketB]
        err := none }
      (by decide)⟩

/-- C9: for every remote set and state set on which Execute completes, every
remote resource of type google_compute_instance_group whose `name` attribute is
present and equal to the `name` of some google_compute_instance_group_manager
resource of the state set is a member of the state set after Execute. -/
theorem execute_injects_matching_groups (remoteResources resourcesFromState : List Resource)
    (out : Outcome) (group manager : Resource) (name : String)
    (h : Execute remoteResources resourcesFromState = some out)
    (hg : group ∈ remoteResources)
    (hgt : group.ResourceType = google.GoogleComputeInstanceGroupResourceType)
    (hgn : group.GetString "name" = some name)
    (hm : manager ∈ resourcesFromState)
    (hmt : manager.ResourceType = google.GoogleComputeInstanceGroupManagerResourceType)
    (hmn : manager.GetString "name" = some name) :
    group ∈ out.resourcesFromState := by
  rw [execute_eq] at h
  by_cases hs : resourcesFromState.all
      (safeResource (collectInstanceGroups remoteResources)) = true
  · rw [if_pos hs] at h
    simp only [Option.some.injEq] at h
    subst h
    simp only
    refine List.mem_flatMap.mpr ⟨manager, hm, ?_⟩
    have hin : group ∈ matchingGroups (collectInstanceGroups remoteResources) name := by
      unfold matchingGroups
      rw [List.mem_filter, collectInstanceGroups_eq_filter, List.mem_filter]
      exact ⟨⟨hg, by simp [hgt]⟩, by simp [hgn]⟩
    simp only [expansion, hmt, if_true, hmn]
    exact List.mem_cons_of_mem _ hin
  · rw [if_neg hs] at h
    cases h

/-- C9, on the remote set `bucketB`, `groupA` and the state set `managerA`:
Execute completes and `groupA` is in its state set. -/
theorem execute_injects_matching_groups_witness :
    Execute [bucketB, groupA] [managerA] =
        some { remoteResources := [bucketB, groupA]
               resourcesFromState := [managerA, groupA]
               err := none } ∧
      groupA ∈ [managerA, groupA] :=
  ⟨by decide,
    execute_injects_matching_groups [bucketB, groupA] [managerA]
      { remoteResources := [bucketB, groupA]
        resourcesFromState := [managerA, groupA]
        err := none }
      groupA managerA "a" (by decide) (by decide) (by decide) (by decide) (by decide)
      (by decide) (by decide)⟩

end middlewares

/-! ## The information printer of the JSON output -/

namespace scanoutput

theorem isStdOut_iff (p : String) :
    (NewJSON p).isStdOut = true ↔ p = "stdout" ∨ p = "/dev/stdout" := by
  simp only [JSON.isStdOut, NewJSON, Bool.or_eq_true, beq_iff_eq]
  exact Or.comm

theorem write_destination {Analysis : Type} (c : JSON) (OpenFile : String → Option String)
    (MarshalIndent : Analysis → Except String String)
    (fileWrite : Destination → String → Option String) (analysis : Analysis)
    (file : Destination) (json : String)
    (h : c.Write OpenFile MarshalIndent fileWrite analysis = Except.ok (file, json)) :
    file = if c.isStdOut then Destination.Stdout else Destination.File c.path := by
  unfold JSON.Write at h
  by_cases hs : c.isStdOut = true
  · simp only [hs, Bool.not_true, Bool.false_eq_true, if_false, if_true] at h ⊢
    cases hm : MarshalIndent analysis with
    | error e => simp [hm] at h
    | ok j =>
      cases hw : fileWrite Destination.Stdout j with
      | some e => simp [hm, hw] at h
      | none =>
        simp only [hm, hw, Except.ok.injEq, Prod.mk.injEq] at h
        exact h.1.symm
  · have hs2 : c.isStdOut = false := by simpa using hs
    simp only [hs2, Bool.not_false, if_true, Bool.false_eq_true, if_false] at h ⊢
    cases ho : OpenFile c.path with
    | some e => simp [ho] at h
    | none =>
      cases hm : MarshalIndent analysis with
      | error e => simp [ho, hm] at h
      | ok j =>
        cases hw : fileWrite (Destination.File c.path) j with
        | some e => simp [ho, hm, hw] at h
        | none =>
          simp only [ho, hm, hw, Except.ok.injEq, Prod.mk.injEq] at h
          exact h.1.symm

/-- C11: for every output path p, GetInfoPrinter returns the void printer, whose
Printf emits nothing, if and only if p is exactly `stdout` or `/dev/stdout`, and
the console printer for every other path.  Hence the informational messages are
suppressed (Printf writes nothing, whatever the message) exactly when the path is
one of these two, which is exactly when a successful Write sends the report to
the standard output stream. -/
theorem getInfoPrinter_void_iff_stdout (p : String) :
    ((NewJSON p).GetInfoPrinter = output.Printer.VoidPrinter ↔
        p = "stdout" ∨ p = "/dev/stdout") ∧
      (¬ (p = "stdout" ∨ p = "/dev/stdout") →
        (NewJSON p).GetInfoPrinter = output.Printer.ConsolePrinter) ∧
      (∀ (sprintf : String → List String → String) (format : String) (args : List String),
        output.Printer.Printf sprintf output.Printer.VoidPrinter format args = []) ∧
      (∀ (sprintf : String → List String → String),
        (∀ format args,
            output.Printer.Printf sprintf (NewJSON p).GetInfoPrinter format args = []) ↔
          p = "stdout" ∨ p = "/dev/stdout") ∧
      (∀ (OpenFile : String → Option String) (MarshalIndent : Unit → Except String String)
          (fileWrite : Destination → String → Option String) (file : Destination)
          (json : String),
        (NewJSON p).Write OpenFile MarshalIndent fileWrite () = Except.ok (file, json) →
          (file = Destination.Stdout ↔
            (NewJSON p).GetInfoPrinter = output.Printer.VoidPrinter)) := by
  have hprinter : (NewJSON p).GetInfoPrinter =
      if (NewJSON p).isStdOut then output.Printer.VoidPrinter
      else output.Printer.ConsolePrinter := rfl
  have hvoid : (NewJSON p).GetInfoPrinter = output.Printer.VoidPrinter ↔
      p = "stdout" ∨ p = "/dev/stdout" := by
    rw [hprinter, ← isStdOut_iff]
    by_cases hs : (NewJSON p).isStdOut = true <;> simp [hs]
  refine ⟨hvoid, ?_, fun _ _ _ => rfl, ?_, ?_⟩
  · intro hn
    rw [hprinter]
    have hs : ¬ (NewJSON p).isStdOut = true := fun h => hn ((isStdOut_iff p).mp h)
    simp [hs]
  · intro sprintf
    rw [← hvoid]
    constructor
    · intro h
      cases hk : (NewJSON p).GetInfoPrinter with
      | VoidPrinter => rfl
      | ConsolePrinter =>
        have := h "" []
        rw [hk] at this
        simp [output.Printer.Printf] at this
    · intro h format args
      rw [h]
      rfl
  · intro OpenFile MarshalIndent fileWrite file json h
    have hd := write_destination (NewJSON p) OpenFile MarshalIndent fileWrite () file json h
    rw [hd, hprinter]
    by_cases hs : (NewJSON p).isStdOut = true <;> simp [hs]

/-- C11, on the three paths of the test of GetInfoPrinter: a file path gives
the console printer, `stdout` and `/dev/stdout` give the void printer. -/
theorem getInfoPrinter_void_iff_stdout_witness :
    (NewJSON "/path/to/file").GetInfoPrinter = output.Printer.ConsolePrinter ∧
      (NewJSON "stdout").GetInfoPrinter = output.Printer.VoidPrinter ∧
      (NewJSON "/dev/stdout").GetInfoPrinter = output.Printer.VoidPrinter :=
  ⟨(getInfoPrinter_void_iff_stdout "/path/to/file").2.1 (by decide),
    (getInfoPrinter_void_iff_stdout "stdout").1.mpr (Or.inl rfl),
    (getInfoPrinter_void_iff_stdout "/dev/stdout").1.mpr (Or.inr rfl)⟩

end scanoutput

/-! ## Deeper paths stay ignored -/

namespace filter

theorem specMatches_append (toLower : String → String) (pattern p q : List String)
    (h : specMatches toLower pattern p) : specMatches toLower pattern (p ++ q) := by
  obtain ⟨hlen, hseg⟩ := h
  refine ⟨by rw [List.length_append]; omega, ?_⟩
  intro k hk
  have hkp : k < p.length := by omega
  have hget : (p ++ q).getD k "" = p.getD k "" := by
    simp only [List.getD_eq_getElem?_getD]
    rw [List.getElem?_append_left hkp]
  rw [hget]
  exact hseg k hk

theorem isExcluded_append (unescape toLower : String → String) (rules p q : List String)
    (h : isExcluded unescape toLower rules p = true) :
    isExcluded unescape toLower rules (p ++ q) = true := by
  rw [isExcluded_iff] at h ⊢
  obtain ⟨rule, hr, hm⟩ := h
  exact ⟨rule, hr, specMatches_append toLower _ p q hm⟩

/-- C14: monotonicity of field exclusion along a path.  For every rule set,
resource, diff path p and list of extra segments q, if IsFieldIgnored is true on
p then it is true on p followed by q: a rule that ignores a path ignores every
deeper path below it. -/
theorem isFieldIgnored_deeper_path (unescape toLower : String → String) (r : DriftIgnore)
    (res : Resource) (p q : List String)
    (h : IsFieldIgnored unescape toLower r res p = true) :
    IsFieldIgnored unescape toLower r res (p ++ q) = true := by
  rw [isFieldIgnored_cases] at h ⊢
  cases hx : r.driftExclusionList.lookup (res.TerraformType ++ "." ++ res.TerraformId) with
  | some rules =>
    rw [hx] at h
    exact isExcluded_append unescape toLower rules p q h
  | none =>
    rw [hx] at h
    cases hw : r.driftExclusionList.lookup (res.TerraformType ++ ".*") with
    | some rules =>
      rw [hw] at h
      exact isExcluded_append unescape toLower rules p q h
    | none =>
      rw [hw] at h
      cases h

/-- C14, on the rule line `aws_instance.i-1.tags.*` and the resource
(aws_instance, i-1): the path `tags`, `Name` is ignored, and so is the deeper
path `tags`, `Name`, `first`. -/
theorem isFieldIgnored_deeper_path_witness :
    IsFieldIgnored stringutils.Unescape strings.ToLower
        (NewDriftIgnore stringutils.Unescape ["aws_instance.i-1.tags.*"])
        { TerraformType := "aws_instance", TerraformId := "i-1" } ["tags", "Name"] = true ∧
      IsFieldIgnored stringutils.Unescape strings.ToLower
        (NewDriftIgnore stringutils.Unescape ["aws_instance.i-1.tags.*"])
        { TerraformType := "aws_instance", TerraformId := "i-1" }
        (["tags", "Name"] ++ ["first"]) = true :=
  ⟨by decide,
    isFieldIgnored_deeper_path stringutils.Unescape strings.ToLower
      (NewDriftIgnore stringutils.Unescape ["aws_instance.i-1.tags.*"])
      { TerraformType := "aws_instance", TerraformId := "i-1" } ["tags", "Name"] ["first"]
      (by decide)⟩

end filter

/-! ## Execute against its reference definition -/

namespace middlewares

theorem safe_of_managersNamed (instanceGroups resourcesFromState : List Resource)
    (h : managersNamed resourcesFromState = true) :
    resourcesFromState.all (safeResource instanceGroups) = true := by
  unfold managersNamed at h
  rw [List.all_eq_true] at h ⊢
  intro r hr
  have := h r hr
  simp only [Bool.or_eq_true] at this
  rcases this with h1 | h1
  · simp [safeResource, h1]
  · simp [safeResource, safeName, h1]

theorem managersNamed_cons (r : Resource) (rest : List Resource)
    (h : managersNamed (r :: rest) = true) :
    (r.ResourceType = google.GoogleComputeInstanceGroupManagerResourceType →
        ∃ nm, r.GetString "name" = some nm) ∧
      managersNamed rest = true := by
  unfold managersNamed at h ⊢
  simp only [List.all_cons, Bool.and_eq_true, Bool.or_eq_true, bne_iff_ne, ne_eq] at h
  refine ⟨?_, h.2⟩
  intro hm
  rcases h.1 with h1 | h1
  · exact absurd hm h1
  · exact Option.isSome_iff_exists.mp h1

theorem expansion_eq_reference (remoteResources : List Resource) (r : Resource)
    (h : r.ResourceType = google.GoogleComputeInstanceGroupManagerResourceType →
      ∃ nm, r.GetString "name" = some nm) :
    expansion (collectInstanceGroups remoteResources) r =
      r ::
        if r.ResourceType = google.GoogleComputeInstanceGroupManagerResourceType then
          remoteResources.filter fun remoteResource =>
            remoteResource.ResourceType == google.GoogleComputeInstanceGroupResourceType &&
              remoteResource.GetString "name" == r.GetString "name"
        else [] := by
  unfold expansion
  by_cases hm : r.ResourceType = google.GoogleComputeInstanceGroupManagerResourceType
  · obtain ⟨nm, hn⟩ := h hm
    simp only [hm, if_true, hn, matchingGroups, collectInstanceGroups_eq_filter,
      List.filter_filter]
    congr 1
    apply List.filter_congr
    intro x _
    rw [Bool.and_comm]
  · simp only [hm, if_false]

theorem flatMap_expansion_eq_reference (remoteResources : List Resource) :
    ∀ resourcesFromState : List Resource, managersNamed resourcesFromState = true →
      resourcesFromState.flatMap (expansion (collectInstanceGroups remoteResources)) =
        referenceState remoteResources resourcesFromState := by
  intro state
  induction state with
  | nil => intro _; rfl
  | cons r rest ih =>
    intro h
    obtain ⟨h1, h2⟩ := managersNamed_cons r rest h
    unfold referenceState at ih ⊢
    rw [List.flatMap_cons, List.flatMap_cons, ih h2, expansion_eq_reference remoteResources r h1]

theorem sublist_referenceState (remoteResources : List Resource) :
    ∀ resourcesFromState : List Resource,
      List.Sublist resourcesFromState (referenceState remoteResources resourcesFromState) := by
  intro state
  induction state with
  | nil => exact List.Sublist.slnil
  | cons r rest ih =>
    unfold referenceState at ih ⊢
    rw [List.flatMap_cons, List.cons_append]
    exact List.Sublist.cons₂ r (ih.trans (List.sublist_append_right _ _))

theorem length_referenceState (remoteResources : List Resource) :
    ∀ resourcesFromState : List Resource,
      (referenceState remoteResources resourcesFromState).length =
        resourcesFromState.length +
          (matchingPairs remoteResources resourcesFromState).length := by
  intro state
  induction state with
  | nil => rfl
  | cons r rest ih =>
    unfold referenceState matchingPairs at ih ⊢
    rw [List.flatMap_cons, List.flatMap_cons, List.filter_append, List.length_append,
      List.length_append, ih, List.filter_map, List.length_map]
    simp only [List.length_cons]
    by_cases hm : r.ResourceType = google.GoogleComputeInstanceGroupManagerResourceType
    · have hf : (List.filter
          ((fun pair : Resource × Resource =>
              pair.1.ResourceType == google.GoogleComputeInstanceGroupManagerResourceType &&
                (pair.2.ResourceType == google.GoogleComputeInstanceGroupResourceType &&
                  pair.2.GetString "name" == pair.1.GetString "name")) ∘
            fun remoteResource => (r, remoteResource))
          remoteResources) =
          remoteResources.filter fun remoteResource =>
            remoteResource.ResourceType == google.GoogleComputeInstanceGroupResourceType &&
              remoteResource.GetString "name" == r.GetString "name" := by
        apply List.filter_congr
        intro x _
        simp [hm]
      rw [hf, if_pos hm]
      omega
    · have hf : (List.filter
          ((fun pair : Resource × Resource =>
              pair.1.ResourceType == google.GoogleComputeInstanceGroupManagerResourceType &&
                (pair.2.ResourceType == google.GoogleComputeInstanceGroupResourceType &&
                  pair.2.GetString "name" == pair.1.GetString "name")) ∘
            fun remoteResource => (r, remoteResource))
          remoteResources) = [] := by
        rw [List.filter_eq_nil_iff]
        intro x _
        simp [hm]
      rw [hf, if_neg hm]
      simp only [List.length_nil]
      omega

/-- C12: reference definition of Execute.  For every remote set R and state set
S in which every instance group manager has a name, Execute completes, leaves R
unchanged, returns the nil error and replaces S by the list obtained by walking S
in order and emitting each state resource followed, only when it has type
google_compute_instance_group_manager, by the remote resources of type
google_compute_instance_group whose name equals the name of the manager, in their
order in R.  So S is a subsequence of the new state set in its original order
(nothing is removed) and the new length is the length of S plus the number of
(manager, matching group) pairs. -/
theorem execute_eq_referenceState (remoteResources resourcesFromState : List Resource)
    (h : managersNamed resourcesFromState = true) :
    Execute remoteResources resourcesFromState =
        some { remoteResources := remoteResources
               resourcesFromState := referenceState remoteResources resourcesFromState
               err := none } ∧
      List.Sublist resourcesFromState (referenceState remoteResources resourcesFromState) ∧
      (referenceState remoteResources resourcesFromState).length =
        resourcesFromState.length +
          (matchingPairs remoteResources resourcesFromState).length := by
  refine ⟨?_, sublist_referenceState remoteResources resourcesFromState,
    length_referenceState remoteResources resourcesFromState⟩
  rw [execute_eq, if_pos (safe_of_managersNamed _ _ h),
    flatMap_expansion_eq_reference remoteResources resourcesFromState h]

/-- C12, on the remote set `bucketB`, `groupA`, `groupNoName`, `groupA` and the
state set `bucketB`, `managerA`, `groupNoName`: the manager is followed by the
two remote copies of `groupA`, and the length grows from 3 to 5. -/
theorem execute_eq_referenceState_witness :
    managersNamed [bucketB, managerA, groupNoName] = true ∧
      referenceState [bucketB, groupA, groupNoName, groupA] [bucketB, managerA, groupNoName] =
        [bucketB, managerA, groupA, groupA, groupNoName] ∧
      (matchingPairs [bucketB, groupA, groupNoName, groupA]
        [bucketB, managerA, groupNoName]).length = 2 ∧
      (Execute [bucketB, groupA, groupNoName, groupA] [bucketB, managerA, groupNoName] =
          some { remoteResources := [bucketB, groupA, groupNoName, groupA]
                 resourcesFromState :=
                   referenceState [bucketB, groupA, groupNoName, groupA]
                     [bucketB, managerA, groupNoName]
                 err := none } ∧
        List.Sublist [bucketB, managerA, groupNoName]
          (referenceState [bucketB, groupA, groupNoName, groupA]
            [bucketB, managerA, groupNoName]) ∧
        (referenceState [bucketB, groupA, groupNoName, groupA]
            [bucketB, managerA, groupNoName]).length =
          [bucketB, managerA, groupNoName].length +
            (matchingPairs [bucketB, groupA, groupNoName, groupA]
              [bucketB, managerA, groupNoName]).length) :=
  ⟨by decide, by decide, by decide,
    execute_eq_referenceState [bucketB, groupA, groupNoName, groupA]
      [bucketB, managerA, groupNoName] (by decide)⟩

end middlewares

/-! ## Execute and absent names -/

namespace middlewares

theorem count_expansion (instanceGroups : List Resource) (r g : Resource)
    (hg : g.GetString "name" = none) :
    (expansion instanceGroups r).count g = [r].count g := by
  unfold expansion
  by_cases hm : r.ResourceType = google.GoogleComputeInstanceGroupManagerResourceType
  · cases hn : r.GetString "name" with
    | none => simp [hm]
    | some nm =>
      have hzero : (matchingGroups instanceGroups nm).count g = 0 := by
        rw [List.count_eq_zero]
        intro hmem
        have := (List.mem_filter.mp hmem).2
        rw [hg] at this
        simp at this
      simp only [hm, if_true]
      rw [List.count_cons, List.count_cons, hzero]
      simp
  · simp [hm]

theorem count_flatMap_expansion (instanceGroups : List Resource) (g : Resource)
    (hg : g.GetString "name" = none) :
    ∀ state : List Resource,
      (state.flatMap (expansion instanceGroups)).count g = state.count g := by
  intro state
  induction state with
  | nil => rfl
  | cons r rest ih =>
    rw [List.flatMap_cons, List.count_append, ih, count_expansion instanceGroups r g hg]
    have : r :: rest = [r] ++ rest := rfl
    rw [this, List.count_append]

theorem unsafe_of_unnamed_manager (remoteResources resourcesFromState : List Resource)
    (m g : Resource) (hm : m ∈ resourcesFromState)
    (hmt : m.ResourceType = google.GoogleComputeInstanceGroupManagerResourceType)
    (hmn : m.GetString "name" = none) (hg : g ∈ remoteResources)
    (hgt : g.ResourceType = google.GoogleComputeInstanceGroupResourceType)
    (hgn : ∃ n, g.GetString "name" = some n) :
    ¬ resourcesFromState.all (safeResource (collectInstanceGroups remoteResources)) = true := by
  intro hall
  rw [List.all_eq_true] at hall
  have hsafe := hall m hm
  obtain ⟨n, hn⟩ := hgn
  have hgin : g ∈ collectInstanceGroups remoteResources := by
    rw [collectInstanceGroups_eq_filter, List.mem_filter]
    exact ⟨hg, by simp [hgt]⟩
  simp only [safeResource, hmt, bne_self_eq_false, Bool.false_or, safeName, hmn,
    Option.isSome_none, List.all_eq_true] at hsafe
  have := hsafe g hgin
  rw [hn] at this
  simp at this

/-- C13: safety of Execute under its precondition.  When every
google_compute_instance_group_manager resource of the state set has a `name`
attribute, Execute completes without dereferencing an absent value and returns
the nil error, for every remote set, and a resource without a `name`, such as a
remote instance group with an absent name, is never injected: it occurs in the new
state set as many times as in the old one.  The precondition is needed: when a
manager of the state set has no name and some remote instance group has one, the
run stops on the dereference of the manager's name. -/
theorem execute_safe_when_managers_named (remoteResources resourcesFromState : List Resource) :
    (managersNamed resourcesFromState = true →
        ∃ out, Execute remoteResources resourcesFromState = some out ∧ out.err = none ∧
          ∀ g : Resource, g.GetString "name" = none →
            out.resourcesFromState.count g = resourcesFromState.count g) ∧
      (∀ m ∈ resourcesFromState,
        m.ResourceType = google.GoogleComputeInstanceGroupManagerResourceType →
        m.GetString "name" = none →
        ∀ g ∈ remoteResources,
          g.ResourceType = google.GoogleComputeInstanceGroupResourceType →
          (∃ n, g.GetString "name" = some n) →
          Execute remoteResources resourcesFromState = none) := by
  constructor
  · intro h
    refine ⟨{ remoteResources := remoteResources
              resourcesFromState :=
                resourcesFromState.flatMap (expansion (collectInstanceGroups remoteResources))
              err := none }, ?_, rfl, ?_⟩
    · rw [execute_eq, if_pos (safe_of_managersNamed _ _ h)]
    · intro g hg
      exact count_flatMap_expansion _ g hg resourcesFromState
  · intro m hm hmt hmn g hg hgt hgn
    rw [execute_eq, if_neg (unsafe_of_unnamed_manager remoteResources resourcesFromState
      m g hm hmt hmn hg hgt hgn)]

/-- C13, on two runs: with the remote set `groupNoName`, `groupA` and the state
set `managerA`, `groupNoName` the run completes with the nil error and
`groupNoName` is not injected; with the remote set `groupA` and the state set
`managerNoName` the run stops. -/
theorem execute_safe_when_managers_named_witness :
    (managersNamed [managerA, groupNoName] = true ∧
        ∃ out, Execute [groupNoName, groupA] [managerA, groupNoName] = some out ∧
          out.err = none ∧
          ∀ g : Resource, g.GetString "name" = none →
            out.resourcesFromState.count g = [managerA, groupNoName].count g) ∧
      Execute [groupA] [managerNoName] = none :=
  ⟨⟨by decide,
      (execute_safe_when_managers_named [groupNoName, groupA] [managerA, groupNoName]).1
        (by decide)⟩,
    (execute_safe_when_managers_named [groupA] [managerNoName]).2 managerNoName (by decide)
      (by decide) (by decide) groupA (by decide) (by decide) ⟨"a", by decide⟩⟩

end middlewares
